import Mathlib

/-!
# pkgextract: discovery and import rewriting

A shallow embedding of `extractor.go` (package `pkgextract`).

* The Go map `pe.importMap` is an association list with distinct keys,
  read with `mapLookup` and written with `mapAssign` (the meaning of
  `m[k] = v`).
* The collaborators the source calls but does not define (`build.Default.Import`,
  `filepath.Join`, `os.MkdirAll`, `parser.ParseFile`, `strconv.Unquote`,
  `strconv.Quote`, `os.Create`, `printer.Fprint`, `bufio.Writer.Flush`,
  `os.File.Close`) are the fields of `Sys`; the ones with an effect pass an
  explicit world `ω` along.
* Every state carries a `trace`, a log of the calls made so far. The log is
  written and never read: it does not influence control flow.
* The `for toScan.Len() > 0` loop is run with fuel; `Result.timeout` is the
  answer when the fuel runs out before the loop is left.
* `treeSys` is a reference storage, a tree of bytes by path, for the claims
  that speak of the output tree; the theorems that use it say so.
-/

namespace Pkgextract

/-- The fields of `build.Package` that the source reads. -/
structure Package where
  Imports : List String
  GoFiles : List String
  SrcRoot : String
deriving DecidableEq, Repr

/-- An `ast.ImportSpec`: `PathValue` is `Path.Value`, the literal text of
the path; the other fields stand for the alias, the position of the literal
and the attached comment. -/
structure ImportSpec where
  Name : Option String
  PathValue : String
  PathPos : Nat
  Comment : Option String
deriving DecidableEq, Repr

/-- An `ast.File`: the package name, the import specs (`f.Imports`) and
everything else of the unit (`Rest`). -/
structure File where
  Name : String
  Imports : List ImportSpec
  Rest : String
deriving DecidableEq, Repr

/-- The type of `pe.importMap` (`map[string]string`). -/
abbrev ImportMap := List (String × String)

/-- The comma-ok read `v, ok := m[k]`. -/
def mapLookup : ImportMap → String → Option String
  | [], _ => none
  | (k, v) :: m, x => if k = x then some v else mapLookup m x

/-- The assignment `m[k] = v`: overwrite an existing key, add a new one. -/
def mapAssign : ImportMap → String → String → ImportMap
  | [], x, y => [(x, y)]
  | (k, v) :: m, x, y => if k = x then (k, y) :: m else (k, v) :: mapAssign m x y

/-- The keys of a map, as `range` may visit them. -/
def mapKeys (m : ImportMap) : List String := m.map Prod.fst

/-- `PackageExtractorOptions`. -/
structure PackageExtractorOptions where
  InitialPkg : String
  ImportRewriter : String → String
  OutputRoot : String
  Filter : String → Bool

/-- The calls recorded in a trace. -/
inductive Event where
  /-- A call of `Import` on a build context (scan or extraction). -/
  | resolve (path : String)
  /-- A call of `pe.Filter`. -/
  | filter (path : String)
  /-- An assignment `pe.importMap[key] = value`. -/
  | insert (key value : String)
  /-- A `toScan.PushBack`. -/
  | push (path : String)
  /-- An entry into `extractPackage`. -/
  | extract (path : String)
deriving DecidableEq, Repr

/-- The collaborators of the source; `ω` is the state of the outside world
(file system, build environment) and `ε` the type of errors. -/
structure Sys (ω ε : Type) where
  /-- The method `Import(path, "", 0)` of `build.Default`. -/
  Import : ω → String → Except ε Package × ω
  /-- The function `filepath.Join`. -/
  Join : List String → String
  /-- The call `os.MkdirAll(path, 0755)`; its error is what the source drops. -/
  MkdirAll : ω → String → Option ε × ω
  /-- The call `parser.ParseFile(fset, path, nil, parser.ParseComments)`. -/
  ParseFile : ω → String → Except ε File × ω
  /-- The function `strconv.Unquote`. -/
  Unquote : String → Except ε String
  /-- The function `strconv.Quote`. -/
  Quote : String → String
  /-- The call `os.Create(path)`. -/
  Create : ω → String → Option ε × ω
  /-- The call `printer.Fprint` into the buffered writer on the created file. -/
  Fprint : ω → String → File → Option ε × ω
  /-- The call `w.Flush()`. -/
  Flush : ω → String → Option ε × ω
  /-- The deferred `out.Close()`. -/
  Close : ω → String → ω

/-- The mutable state of a run: `pe.importMap`, the outside world and the
log of calls. -/
structure State (ω : Type) where
  importMap : ImportMap
  world : ω
  trace : List Event

/-- The state of the loop of `scanForPackages`: the locals `toScan` and `seen`
on top of the run state. -/
structure ScanState (ω : Type) where
  toScan : List String
  seen : List String
  st : State ω

/-- What a fuelled function answers: it returned (with its error value), or
the fuel ran out in the given state. -/
inductive Result (ε σ : Type) where
  | ret (err : Option ε) (s : σ)
  | timeout (s : σ)

/-- `NewPackageExtractor`: the extractor starts with the empty map. -/
def NewPackageExtractor {ω : Type} (w : ω) : State ω :=
  { importMap := [], world := w, trace := [] }

/-- One pass of the body of `for _, impPath := range pkg.Imports`
(lines 72-82). -/
def scanImport {ω : Type} (pe : PackageExtractorOptions) (impPath : String)
    (s : ScanState ω) : ScanState ω :=
  if impPath ∈ s.seen then s
  else
    let s1 : ScanState ω :=
      if pe.Filter impPath then
        { s with
          toScan := s.toScan ++ [impPath]
          st := { s.st with
            importMap := mapAssign s.st.importMap impPath (pe.ImportRewriter impPath)
            trace := s.st.trace ++ [Event.filter impPath,
              Event.insert impPath (pe.ImportRewriter impPath), Event.push impPath] } }
      else
        { s with st := { s.st with trace := s.st.trace ++ [Event.filter impPath] } }
    { s1 with seen := impPath :: s1.seen }

/-- The loop `for _, impPath := range pkg.Imports`. -/
def scanImports {ω : Type} (pe : PackageExtractorOptions) :
    List String → ScanState ω → ScanState ω
  | [], s => s
  | impPath :: rest, s => scanImports pe rest (scanImport pe impPath s)

/-- The loop `for toScan.Len() > 0` of `scanForPackages` (lines 63-84). -/
def scanLoop {ω ε : Type} (sys : Sys ω ε) (pe : PackageExtractorOptions) :
    Nat → ScanState ω → Result ε (ScanState ω)
  | 0, s => Result.timeout s
  | fuel + 1, s =>
    match s.toScan with
    | [] => Result.ret none s
    | pkgPath :: rest =>
      match sys.Import s.st.world pkgPath with
      | (Except.error err, w) =>
        Result.ret (some err)
          { s with
            toScan := rest
            st := { s.st with world := w, trace := s.st.trace ++ [Event.resolve pkgPath] } }
      | (Except.ok pkg, w) =>
        scanLoop sys pe fuel
          (scanImports pe pkg.Imports
            { s with
              toScan := rest
              st := { s.st with world := w, trace := s.st.trace ++ [Event.resolve pkgPath] } })

/-- The start of `scanForPackages` (lines 60-62): the root is pushed and marked
seen. -/
def scanInit {ω : Type} (pe : PackageExtractorOptions) (st : State ω) : ScanState ω :=
  { toScan := [pe.InitialPkg]
    seen := [pe.InitialPkg]
    st := { st with trace := st.trace ++ [Event.push pe.InitialPkg] } }

/-- `scanForPackages`. -/
def scanForPackages {ω ε : Type} (sys : Sys ω ε) (pe : PackageExtractorOptions)
    (fuel : Nat) (st : State ω) : Result ε (ScanState ω) :=
  scanLoop sys pe fuel (scanInit pe st)

/-- Line 43 of `Run`: the root is put into the map. -/
def insertRoot {ω : Type} (pe : PackageExtractorOptions) (st : State ω) : State ω :=
  { st with
    importMap := mapAssign st.importMap pe.InitialPkg (pe.ImportRewriter pe.InitialPkg)
    trace := st.trace ++ [Event.insert pe.InitialPkg (pe.ImportRewriter pe.InitialPkg)] }

/-- The discovery phase of `Run` (lines 43-44) on a fresh extractor. -/
def discover {ω ε : Type} (sys : Sys ω ε) (pe : PackageExtractorOptions)
    (fuel : Nat) (w : ω) : Result ε (ScanState ω) :=
  scanForPackages sys pe fuel (insertRoot pe (NewPackageExtractor w))

/-- The loop of `updateImports` over the import specs. The specs are mutated in
place in the source, so the specs come back also when an error is returned:
the ones before the failing literal have been visited, the rest is as it was. -/
def updateImportSpecs {ω ε : Type} (sys : Sys ω ε) (m : ImportMap) :
    List ImportSpec → Option ε × List ImportSpec
  | [] => (none, [])
  | impSpec :: rest =>
    match sys.Unquote impSpec.PathValue with
    | Except.error err => (some err, impSpec :: rest)
    | Except.ok impPath =>
      let impSpec1 : ImportSpec :=
        match mapLookup m impPath with
        | some newPath => { impSpec with PathValue := sys.Quote newPath }
        | none => impSpec
      let r := updateImportSpecs sys m rest
      (r.1, impSpec1 :: r.2)

/-- `updateImports`: the error value, the file after the call and the run
state. -/
def updateImports {ω ε : Type} (sys : Sys ω ε) (f : File) (st : State ω) :
    Option ε × File × State ω :=
  let r := updateImportSpecs sys st.importMap f.Imports
  (r.1, { f with Imports := r.2 }, st)

/-- `extractFile`. -/
def extractFile {ω ε : Type} (sys : Sys ω ε) (srcPath dstPath : String) (st : State ω) :
    Option ε × State ω :=
  match sys.ParseFile st.world srcPath with
  | (Except.error err, w) => (some err, { st with world := w })
  | (Except.ok f, w) =>
    match updateImports sys f { st with world := w } with
    | (some err, _, st1) => (some err, st1)
    | (none, f1, st1) =>
      match sys.Create st1.world dstPath with
      | (some err, w1) => (some err, { st1 with world := w1 })
      | (none, w1) =>
        match sys.Fprint w1 dstPath f1 with
        | (some err, w2) => (some err, { st1 with world := sys.Close w2 dstPath })
        | (none, w2) =>
          match sys.Flush w2 dstPath with
          | (some err, w3) => (some err, { st1 with world := sys.Close w3 dstPath })
          | (none, w3) => (none, { st1 with world := sys.Close w3 dstPath })

/-- The loop `for _, f := range pkg.GoFiles` of `extractPackage`. -/
def extractFiles {ω ε : Type} (sys : Sys ω ε) (pe : PackageExtractorOptions)
    (srcDir newImportPath : String) : List String → State ω → Option ε × State ω
  | [], st => (none, st)
  | f :: rest, st =>
    match extractFile sys (sys.Join [srcDir, f]) (sys.Join [pe.OutputRoot, newImportPath, f]) st with
    | (some err, st1) => (some err, st1)
    | (none, st1) => extractFiles sys pe srcDir newImportPath rest st1

/-- `extractPackage`. -/
def extractPackage {ω ε : Type} (sys : Sys ω ε) (pe : PackageExtractorOptions)
    (importPath : String) (st : State ω) : Option ε × State ω :=
  let st0 : State ω :=
    { st with trace := st.trace ++ [Event.extract importPath, Event.resolve importPath] }
  match sys.Import st0.world importPath with
  | (Except.error err, w) => (some err, { st0 with world := w })
  | (Except.ok pkg, w) =>
    let newImportPath := pe.ImportRewriter importPath
    let w1 := (sys.MkdirAll w (sys.Join [pe.OutputRoot, newImportPath])).2
    let srcDir := sys.Join [pkg.SrcRoot, importPath]
    extractFiles sys pe srcDir newImportPath pkg.GoFiles { st0 with world := w1 }

/-- The loop `for originalPath := range pe.importMap` of `Run`, over the keys
in the order the iteration visits them. -/
def extractAll {ω ε : Type} (sys : Sys ω ε) (pe : PackageExtractorOptions) :
    List String → State ω → Option ε × State ω
  | [], st => (none, st)
  | originalPath :: rest, st =>
    match extractPackage sys pe originalPath st with
    | (some err, st1) => (some err, st1)
    | (none, st1) => extractAll sys pe rest st1

/-- `Run` on a fresh extractor. The iteration order of a Go map is not
specified: `order` gives, for the map discovery has built, the order in which
`range` visits its keys. The result of `scanForPackages` is dropped, as on
line 44. -/
def Run {ω ε : Type} (sys : Sys ω ε) (pe : PackageExtractorOptions)
    (order : ImportMap → List String) (fuel : Nat) (w : ω) : Result ε (State ω) :=
  match discover sys pe fuel w with
  | Result.timeout s => Result.timeout s.st
  | Result.ret _ s =>
    let r := extractAll sys pe (order s.st.importMap) s.st
    Result.ret r.1 r.2

/-! ### Reading a trace -/

/-- The identifiers resolved by `Import`, in call order. -/
def resolvedOf (tr : List Event) : List String :=
  tr.filterMap fun e => match e with
    | Event.resolve p => some p
    | _ => none

/-- The identifiers `pe.Filter` was called on, in call order. -/
def filteredOf (tr : List Event) : List String :=
  tr.filterMap fun e => match e with
    | Event.filter p => some p
    | _ => none

/-- The assignments to `pe.importMap`, in order. -/
def insertsOf (tr : List Event) : List (String × String) :=
  tr.filterMap fun e => match e with
    | Event.insert k v => some (k, v)
    | _ => none

/-- The identifiers pushed onto `toScan`, in order. -/
def pushedOf (tr : List Event) : List String :=
  tr.filterMap fun e => match e with
    | Event.push p => some p
    | _ => none

/-- The keys `extractPackage` was entered with, in order. -/
def extractedOf (tr : List Event) : List String :=
  tr.filterMap fun e => match e with
    | Event.extract p => some p
    | _ => none

/-- The state a result carries. -/
def Result.state {ε σ : Type} : Result ε σ → σ
  | Result.ret _ s => s
  | Result.timeout s => s

/-- The function returned (the fuel was enough). -/
def Result.returned {ε σ : Type} : Result ε σ → Bool
  | Result.ret _ _ => true
  | Result.timeout _ => false

/-- The error value of a result that returned. -/
def Result.err {ε σ : Type} : Result ε σ → Option ε
  | Result.ret e _ => e
  | Result.timeout _ => none

/-- The chains of claim C1: `Reach imports Filter root d` holds when there are
`root = x0, x1, ..., xn = d` with `x(i+1)` among the declared imports of `x(i)`
and `Filter (x i)` true for every `i ≥ 1`. -/
inductive Reach (imports : String → List String) (Filter : String → Bool) (root : String) :
    String → Prop where
  | root : Reach imports Filter root root
  | step {x y : String} : Reach imports Filter root x → y ∈ imports x → Filter y = true →
      Reach imports Filter root y

/-- The invariant of the loops of `scanForPackages` inside `Run`: the locals
and the map are determined by the list of identifiers `Filter` has been asked
about. -/
structure ScanInv {ω : Type} (pe : PackageExtractorOptions) (s : ScanState ω) : Prop where
  seen_eq : s.seen = (filteredOf s.st.trace).reverse ++ [pe.InitialPkg]
  seen_nodup : s.seen.Nodup
  map_eq : s.st.importMap =
    (pe.InitialPkg :: (filteredOf s.st.trace).filter pe.Filter).map
      (fun k => (k, pe.ImportRewriter k))
  inserts_eq : insertsOf s.st.trace = s.st.importMap
  pushed_eq : pushedOf s.st.trace = pe.InitialPkg :: (filteredOf s.st.trace).filter pe.Filter
  queue_eq : resolvedOf s.st.trace ++ s.toScan = pushedOf s.st.trace

/-! ### Example systems -/

/-- The double quote character. -/
def dquote : Char := Char.ofNat 34

/-- A small instance of `strconv.Quote`: the text between double quotes (the
literal Go writes for a string of plain characters). -/
def quotePlain (s : String) : String :=
  String.mk (dquote :: (s.data ++ [dquote]))

/-- A small instance of `strconv.Unquote`: the text between the double quotes
of a literal, an error for any other text. -/
def unquotePlain (s : String) : Except String String :=
  match s.data with
  | [] => Except.error "invalid syntax"
  | c :: rest =>
    match rest.reverse with
    | [] => Except.error "invalid syntax"
    | d :: body =>
      if c = dquote ∧ d = dquote then Except.ok (String.mk body.reverse)
      else Except.error "invalid syntax"

/-- An example system over a resolver `graph` and a table of parsed files: the
world is the list of the effects performed so far. -/
def demoSys (graph : String → Except String Package)
    (files : String → Except String File) : Sys (List String) String where
  Import := fun w p => (graph p, w)
  Join := fun parts => String.intercalate "/" parts
  MkdirAll := fun w p => (none, w ++ ["mkdir " ++ p])
  ParseFile := fun w p => (files p, w)
  Unquote := unquotePlain
  Quote := quotePlain
  Create := fun w p => (none, w ++ ["create " ++ p])
  Fprint := fun w p _ => (none, w ++ ["print " ++ p])
  Flush := fun w p => (none, w ++ ["flush " ++ p])
  Close := fun w p => w ++ ["close " ++ p]

/-- A package with the given imports and no files. -/
def pkgOf (imports : List String) : Package :=
  { Imports := imports, GoFiles := [], SrcRoot := "src" }

/-- The graph of the first scenario: `A` imports `B` and `C`, `B` imports `D`. -/
def graphABCD (p : String) : Package :=
  if p = "A" then pkgOf ["B", "C"]
  else if p = "B" then pkgOf ["D"]
  else pkgOf []

/-- The cyclic graph `A -> B -> A`. -/
def graphCycle (p : String) : Package :=
  if p = "A" then pkgOf ["B"]
  else if p = "B" then pkgOf ["A"]
  else pkgOf []

/-- A resolver that knows `A`, with one file and the import `B`, and fails on
everything else. -/
def graphBroken (p : String) : Except String Package :=
  if p = "A" then Except.ok { Imports := ["B"], GoFiles := ["a.go"], SrcRoot := "src" }
  else Except.error ("cannot find package " ++ p)

/-- A parsed file without imports. -/
def emptyFile : File := { Name := "a", Imports := [], Rest := "" }

/-- The options of the first scenario: `Filter` rejects only `C`, the rewriter
puts `out/` in front. -/
def peScenario : PackageExtractorOptions :=
  { InitialPkg := "A"
    ImportRewriter := fun x => "out/" ++ x
    OutputRoot := "dst"
    Filter := fun x => x != "C" }

/-- Options with a `Filter` that accepts everything. -/
def peAll : PackageExtractorOptions :=
  { InitialPkg := "A"
    ImportRewriter := fun x => "out/" ++ x
    OutputRoot := "dst"
    Filter := fun _ => true }

/-- Options with a `Filter` that rejects everything. -/
def peNone : PackageExtractorOptions :=
  { InitialPkg := "A"
    ImportRewriter := fun x => "out/" ++ x
    OutputRoot := "dst"
    Filter := fun _ => false }

/-- The example system of the first scenario. -/
def sysABCD : Sys (List String) String :=
  demoSys (fun p => Except.ok (graphABCD p)) (fun _ => Except.ok emptyFile)

/-- The example system of the cyclic scenario. -/
def sysCycle : Sys (List String) String :=
  demoSys (fun p => Except.ok (graphCycle p)) (fun _ => Except.ok emptyFile)

/-- The example system whose resolver fails on `B`. -/
def sysBroken : Sys (List String) String :=
  demoSys graphBroken (fun _ => Except.ok emptyFile)

/-- An import spec with the given literal and nothing else. -/
def specOf (lit : String) : ImportSpec :=
  { Name := none, PathValue := lit, PathPos := 0, Comment := none }

/-- A parsed file of package `A` that imports `B` and `C`. -/
def fileBC : File :=
  { Name := "a", Imports := [specOf (quotePlain "B"), specOf (quotePlain "C")], Rest := "" }

/-- A run state whose map is `B: out/B`. -/
def stateB : State (List String) :=
  { importMap := [("B", "out/B")], world := [], trace := [] }

/-! ### The extraction loop as the specification words it -/

/-- The body of the loop of `ExtractAll(map)` as the specification words it,
for one pair `(original, relocated)` of the map: the metadata of `original` is
resolved, the destination location is the one of `relocated`, read from the
map and not computed again, and the files of `original` go there. -/
def extractPair {ω ε : Type} (sys : Sys ω ε) (pe : PackageExtractorOptions)
    (original relocated : String) (st : State ω) : Option ε × State ω :=
  let st0 : State ω :=
    { st with trace := st.trace ++ [Event.extract original, Event.resolve original] }
  match sys.Import st0.world original with
  | (Except.error err, w) => (some err, { st0 with world := w })
  | (Except.ok pkg, w) =>
    let w1 := (sys.MkdirAll w (sys.Join [pe.OutputRoot, relocated])).2
    let srcDir := sys.Join [pkg.SrcRoot, original]
    extractFiles sys pe srcDir relocated pkg.GoFiles { st0 with world := w1 }

/-- The loop of `ExtractAll(map)` as the specification words it, over the
pairs of the map. -/
def extractPairs {ω ε : Type} (sys : Sys ω ε) (pe : PackageExtractorOptions) :
    List (String × String) → State ω → Option ε × State ω
  | [], st => (none, st)
  | (original, relocated) :: rest, st =>
    match extractPair sys pe original relocated st with
    | (some err, st1) => (some err, st1)
    | (none, st1) => extractPairs sys pe rest st1

/-- A graph of packages without imports and without files. -/
def graphLeaf (_ : String) : Package := pkgOf []

/-- An example system in which `os.MkdirAll` fails. -/
def sysMkdirFails : Sys (List String) String :=
  { demoSys (fun p => Except.ok (graphLeaf p)) (fun _ => Except.ok emptyFile) with
    MkdirAll := fun w p => (some ("mkdir " ++ p ++ ": permission denied"), w) }

/-- The identifiers reached from the root through answers of the resolver:
the root, and every identifier that `Filter` accepts among the imports of a
package the resolver answered, in some world, for a reached identifier. -/
inductive ReachVia {ω ε : Type} (sys : Sys ω ε) (pe : PackageExtractorOptions) :
    String → Prop where
  | root : ReachVia sys pe pe.InitialPkg
  | step {p k : String} {w : ω} {pkg : Package} : ReachVia sys pe p →
      (sys.Import w p).1 = Except.ok pkg → k ∈ pkg.Imports → pe.Filter k = true →
      ReachVia sys pe k

/-- The keys of `m` are sound: each is reached from the root, and each is
the root or an identifier that `Filter` accepts among the imports of a package
the resolver answered for another key of `m`. -/
def KeysSound {ω ε : Type} (sys : Sys ω ε) (pe : PackageExtractorOptions)
    (m : ImportMap) : Prop :=
  ∀ k ∈ mapKeys m, ReachVia sys pe k ∧
    (k = pe.InitialPkg ∨
      (pe.Filter k = true ∧ ∃ p ∈ mapKeys m, p ≠ k ∧
        ∃ w pkg, (sys.Import w p).1 = Except.ok pkg ∧ k ∈ pkg.Imports))

/-- The graph of the first scenario with the imports of `A` in the other
order: `A` imports `C` and `B`, `B` imports `D`. -/
def graphACBD (p : String) : Package :=
  if p = "A" then pkgOf ["C", "B"]
  else if p = "B" then pkgOf ["D"]
  else pkgOf []

/-- The example system of the reordered first scenario. -/
def sysACBD : Sys (List String) String :=
  demoSys (fun p => Except.ok (graphACBD p)) (fun _ => Except.ok emptyFile)

/-! ### A reference storage -/

/-- The destination tree of the reference storage: the bytes of every file,
by path. -/
abbrev Tree := List (String × String)

/-- The path made of the given parts, with a slash between them. -/
def joinSlash (parts : List String) : String := String.intercalate "/" parts

/-- Modelled from the spec: the Storage collaborator of section 6
(`EnsureLocation`, `WriteFile`), for which the source calls `os.MkdirAll`,
`os.Create`, `printer.Fprint` on a buffered writer, `Flush` and `Close`, is not
in the source. The world is the destination tree. Resolving and parsing read
the source universe (`graph`, `files`) and leave the tree alone; ensuring a
location leaves the files alone; `Create` makes the file exist with no bytes
(or truncates it); `Fprint` puts the bytes `render` gives for the unit into
the file, or fails and leaves the file as `Create` made it; `Flush` and
`Close` add nothing. -/
def treeSys (graph : String → Except String Package) (files : String → Except String File)
    (render : File → Except String String) : Sys Tree String where
  Import := fun w p => (graph p, w)
  Join := joinSlash
  MkdirAll := fun w _ => (none, w)
  ParseFile := fun w p => (files p, w)
  Unquote := unquotePlain
  Quote := quotePlain
  Create := fun w p => (none, mapAssign w p "")
  Fprint := fun w p f =>
    match render f with
    | Except.ok bytes => (none, mapAssign w p bytes)
    | Except.error err => (some err, w)
  Flush := fun w _ => (none, w)
  Close := fun w _ => w

/-- The bytes `extractFile` writes, on the reference storage, for the source
file at `src` under the map `m`: the rendering of the parsed unit after
`updateImports`; `none` when parsing, rewriting or rendering fails. -/
def fileBytes (graph : String → Except String Package) (files : String → Except String File)
    (render : File → Except String String) (m : ImportMap) (src : String) : Option String :=
  match files src with
  | Except.error _ => none
  | Except.ok f =>
    match updateImportSpecs (treeSys graph files render) m f.Imports with
    | (some _, _) => none
    | (none, specs) =>
      match render { f with Imports := specs } with
      | Except.ok bytes => some bytes
      | Except.error _ => none

/-- On the reference storage, `path` is the destination of a file of one of
the keys `ks`, and `content` is what `extractFile` writes for that file under
the map `m`. -/
def WrittenBy (graph : String → Except String Package) (files : String → Except String File)
    (render : File → Except String String) (pe : PackageExtractorOptions) (m : ImportMap)
    (ks : List String) (path : String) (content : Option String) : Prop :=
  ∃ k ∈ ks, ∃ pkg, graph k = Except.ok pkg ∧ ∃ f ∈ pkg.GoFiles,
    joinSlash [pe.OutputRoot, pe.ImportRewriter k, f] = path ∧
    content = fileBytes graph files render m (joinSlash [joinSlash [pkg.SrcRoot, k], f])

/-- A rendering of a unit: the package name, the literals of the imports and
the rest. -/
def renderPlain (f : File) : String :=
  "package " ++ f.Name ++ String.join (f.Imports.map fun sp => " " ++ sp.PathValue) ++ f.Rest

/-- A universe of two packages with one file each: `A` imports `B`. -/
def graphAB (p : String) : Except String Package :=
  if p = "A" then Except.ok { Imports := ["B"], GoFiles := ["a.go"], SrcRoot := "src" }
  else if p = "B" then Except.ok { Imports := [], GoFiles := ["b.go"], SrcRoot := "src" }
  else Except.error ("cannot find package " ++ p)

/-- The parsed files of `graphAB`: the file of `A` imports `B` and `C`. -/
def filesAB (path : String) : Except String File :=
  if path = "src/A/a.go" then Except.ok fileBC
  else if path = "src/B/b.go" then Except.ok { Name := "b", Imports := [], Rest := "" }
  else Except.error ("open " ++ path ++ ": no such file")

/-- The files of `graphAB` when the file of `B` does not parse. -/
def filesABad (path : String) : Except String File :=
  if path = "src/A/a.go" then Except.ok fileBC
  else Except.error (path ++ ": syntax error")

/-- The reference storage over `graphAB` and `filesAB`. -/
def sysTreeAB : Sys Tree String :=
  treeSys graphAB filesAB (fun f => Except.ok (renderPlain f))

/-- The reference storage over `graphAB` when the file of `B` does not parse. -/
def sysTreeABad : Sys Tree String :=
  treeSys graphAB filesABad (fun f => Except.ok (renderPlain f))

/-- The reference storage over `graphAB` with a printer that fails. -/
def sysTreePrintFails : Sys Tree String :=
  treeSys graphAB filesAB (fun _ => Except.error "write: no space left on device")

/-- A universe of two packages that each have a file `doc.go`: `A` imports
`B`. -/
def graphClash (p : String) : Except String Package :=
  if p = "A" then Except.ok { Imports := ["B"], GoFiles := ["doc.go"], SrcRoot := "src" }
  else if p = "B" then Except.ok { Imports := [], GoFiles := ["doc.go"], SrcRoot := "src" }
  else Except.error ("cannot find package " ++ p)

/-- The parsed files of `graphClash`. -/
def filesClash (path : String) : Except String File :=
  if path = "src/A/doc.go" then Except.ok { Name := "a", Imports := [], Rest := "" }
  else if path = "src/B/doc.go" then Except.ok { Name := "b", Imports := [], Rest := "" }
  else Except.error ("open " ++ path ++ ": no such file")

/-- The reference storage over `graphClash` and `filesClash`. -/
def sysTreeClash : Sys Tree String :=
  treeSys graphClash filesClash (fun f => Except.ok (renderPlain f))

/-- Options whose rewriter sends every identifier to `out`. -/
def peFlat : PackageExtractorOptions :=
  { InitialPkg := "A"
    ImportRewriter := fun _ => "out"
    OutputRoot := "dst"
    Filter := fun _ => true }

/-- A run state on the reference storage whose map is `B: out/B` and whose
tree is empty. -/
def stateTreeB : State Tree :=
  { importMap := [("B", "out/B")], world := [], trace := [] }

/-! ## Lemmas

### The map -/

theorem mapAssign_of_not_mem (m : ImportMap) (k v : String) (h : k ∉ mapKeys m) :
    mapAssign m k v = m ++ [(k, v)] := by
  induction m with
  | nil => rfl
  | cons p m ih =>
    obtain ⟨a, b⟩ := p
    simp only [mapKeys, List.map_cons, List.mem_cons, not_or] at h
    have hne : a ≠ k := fun e => h.1 e.symm
    simp only [mapAssign, hne, if_false, List.cons_append]
    rw [ih h.2]

theorem mapLookup_eq_none_iff (m : ImportMap) (k : String) :
    mapLookup m k = none ↔ k ∉ mapKeys m := by
  induction m with
  | nil => simp [mapLookup, mapKeys]
  | cons p m ih =>
    obtain ⟨a, b⟩ := p
    by_cases h : a = k
    · simp [mapLookup, mapKeys, h]
    · have h2 : ¬ k = a := fun e => h e.symm
      simp only [mapLookup, h, if_false, ih, mapKeys, List.map_cons, List.mem_cons, h2, false_or]

theorem mapLookup_rewriter (f : String → String) (l : List String) (k : String) (h : k ∈ l) :
    mapLookup (l.map fun x => (x, f x)) k = some (f k) := by
  induction l with
  | nil => cases h
  | cons a l ih =>
    by_cases e : a = k
    · simp [mapLookup, e]
    · have hk : k ∈ l := by
        rcases List.mem_cons.1 h with h1 | h1
        · exact absurd h1.symm e
        · exact h1
      simp only [List.map_cons, mapLookup, e, if_false]
      exact ih hk

theorem mapKeys_rewriter (f : String → String) (l : List String) :
    mapKeys (l.map fun x => (x, f x)) = l := by
  simp [mapKeys, Function.comp_def]

/-! ### Traces -/

theorem resolvedOf_append (a b : List Event) :
    resolvedOf (a ++ b) = resolvedOf a ++ resolvedOf b := by
  simp [resolvedOf]

theorem filteredOf_append (a b : List Event) :
    filteredOf (a ++ b) = filteredOf a ++ filteredOf b := by
  simp [filteredOf]

theorem insertsOf_append (a b : List Event) :
    insertsOf (a ++ b) = insertsOf a ++ insertsOf b := by
  simp [insertsOf]

theorem pushedOf_append (a b : List Event) :
    pushedOf (a ++ b) = pushedOf a ++ pushedOf b := by
  simp [pushedOf]

theorem extractedOf_append (a b : List Event) :
    extractedOf (a ++ b) = extractedOf a ++ extractedOf b := by
  simp [extractedOf]

theorem mem_filteredOf (tr : List Event) (p : String) :
    p ∈ filteredOf tr ↔ Event.filter p ∈ tr := by
  unfold filteredOf
  rw [List.mem_filterMap]
  constructor
  · rintro ⟨e, he, h⟩
    cases e <;> simp at h
    subst h
    exact he
  · intro h
    exact ⟨_, h, rfl⟩

theorem mem_insertsOf (tr : List Event) (k v : String) :
    (k, v) ∈ insertsOf tr ↔ Event.insert k v ∈ tr := by
  unfold insertsOf
  rw [List.mem_filterMap]
  constructor
  · rintro ⟨e, he, h⟩
    cases e <;> simp at h
    obtain ⟨h1, h2⟩ := h
    subst h1 h2
    exact he
  · intro h
    exact ⟨_, h, rfl⟩

/-! ### The invariant of the scan -/

theorem ScanInv.root_not_filtered {ω : Type} {pe : PackageExtractorOptions} {s : ScanState ω}
    (h : ScanInv pe s) : pe.InitialPkg ∉ filteredOf s.st.trace := by
  have hn := h.seen_nodup
  rw [h.seen_eq] at hn
  have := (List.nodup_append.1 hn).2.2
  intro hm
  exact this (List.mem_reverse.2 hm) (List.mem_singleton_self _) 

theorem ScanInv.filtered_nodup {ω : Type} {pe : PackageExtractorOptions} {s : ScanState ω}
    (h : ScanInv pe s) : (filteredOf s.st.trace).Nodup := by
  have hn := h.seen_nodup
  rw [h.seen_eq] at hn
  exact List.nodup_reverse.1 (List.nodup_append.1 hn).1

theorem ScanInv.keys_eq {ω : Type} {pe : PackageExtractorOptions} {s : ScanState ω}
    (h : ScanInv pe s) :
    mapKeys s.st.importMap = pe.InitialPkg :: (filteredOf s.st.trace).filter pe.Filter := by
  rw [h.map_eq, mapKeys_rewriter]

theorem ScanInv.keys_seen {ω : Type} {pe : PackageExtractorOptions} {s : ScanState ω}
    (h : ScanInv pe s) (k : String) (hk : k ∈ mapKeys s.st.importMap) : k ∈ s.seen := by
  rw [h.keys_eq] at hk
  rw [h.seen_eq]
  rcases List.mem_cons.1 hk with e | e
  · simp [e]
  · simp [(List.mem_filter.1 e).1]

theorem scanInit_inv {ω : Type} (pe : PackageExtractorOptions) (w : ω) :
    ScanInv pe (scanInit pe (insertRoot pe (NewPackageExtractor w))) := by
  constructor <;>
    simp [scanInit, insertRoot, NewPackageExtractor, mapAssign, filteredOf, insertsOf,
      pushedOf, resolvedOf]

theorem scanImport_inv {ω : Type} (pe : PackageExtractorOptions) (impPath : String)
    (s : ScanState ω) (h : ScanInv pe s) : ScanInv pe (scanImport pe impPath s) := by
  unfold scanImport
  by_cases hs : impPath ∈ s.seen
  · simpa [hs] using h
  · have hk : impPath ∉ mapKeys s.st.importMap := fun hk => hs (h.keys_seen _ hk)
    by_cases hf : pe.Filter impPath = true
    · simp only [hs, if_false, hf, if_true]
      have e1 : filteredOf [Event.filter impPath,
          Event.insert impPath (pe.ImportRewriter impPath), Event.push impPath] = [impPath] := rfl
      have e2 : insertsOf [Event.filter impPath,
          Event.insert impPath (pe.ImportRewriter impPath), Event.push impPath]
          = [(impPath, pe.ImportRewriter impPath)] := rfl
      have e3 : pushedOf [Event.filter impPath,
          Event.insert impPath (pe.ImportRewriter impPath), Event.push impPath] = [impPath] := rfl
      have e4 : resolvedOf [Event.filter impPath,
          Event.insert impPath (pe.ImportRewriter impPath), Event.push impPath] = [] := rfl
      constructor
      · simp only [filteredOf_append, e1, h.seen_eq, List.reverse_append, List.reverse_cons,
          List.reverse_nil, List.nil_append, List.singleton_append, List.cons_append]
      · exact List.nodup_cons.2 ⟨hs, h.seen_nodup⟩
      · show mapAssign s.st.importMap impPath (pe.ImportRewriter impPath) = _
        rw [mapAssign_of_not_mem _ _ _ hk, h.map_eq]
        simp [filteredOf_append, e1, hf]
      · show insertsOf (s.st.trace ++ _) = mapAssign s.st.importMap impPath _
        rw [mapAssign_of_not_mem _ _ _ hk, insertsOf_append, e2, h.inserts_eq]
      · show pushedOf (s.st.trace ++ _) = _ :: List.filter _ (filteredOf (s.st.trace ++ _))
        rw [pushedOf_append, e3, filteredOf_append, e1, h.pushed_eq]
        simp [hf]
      · show resolvedOf (s.st.trace ++ _) ++ (s.toScan ++ [impPath]) = pushedOf (s.st.trace ++ _)
        rw [pushedOf_append, e3, resolvedOf_append, e4, ← h.queue_eq]
        simp
    · have hf2 : pe.Filter impPath = false := by simpa using hf
      simp only [hs, if_false, hf2, Bool.false_eq_true]
      have e1 : filteredOf [Event.filter impPath] = [impPath] := rfl
      have e2 : insertsOf [Event.filter impPath] = [] := rfl
      have e3 : pushedOf [Event.filter impPath] = [] := rfl
      have e4 : resolvedOf [Event.filter impPath] = [] := rfl
      constructor
      · simp only [filteredOf_append, e1, h.seen_eq, List.reverse_append, List.reverse_cons,
          List.reverse_nil, List.nil_append, List.singleton_append, List.cons_append]
      · exact List.nodup_cons.2 ⟨hs, h.seen_nodup⟩
      · show s.st.importMap = _
        rw [h.map_eq]
        simp [filteredOf_append, e1, hf]
      · show insertsOf (s.st.trace ++ _) = s.st.importMap
        rw [insertsOf_append, e2, h.inserts_eq, List.append_nil]
      · show pushedOf (s.st.trace ++ _) = _ :: List.filter _ (filteredOf (s.st.trace ++ _))
        rw [pushedOf_append, e3, filteredOf_append, e1, h.pushed_eq]
        simp [hf]
      · show resolvedOf (s.st.trace ++ _) ++ s.toScan = pushedOf (s.st.trace ++ _)
        rw [pushedOf_append, e3, resolvedOf_append, e4, ← h.queue_eq]
        simp

theorem scanImports_inv {ω : Type} (pe : PackageExtractorOptions) (imports : List String)
    (s : ScanState ω) (h : ScanInv pe s) : ScanInv pe (scanImports pe imports s) := by
  induction imports generalizing s with
  | nil => exact h
  | cons a l ih => exact ih _ (scanImport_inv pe a s h)

theorem scanPop_inv {ω : Type} (pe : PackageExtractorOptions) (s : ScanState ω)
    (pkgPath : String) (rest : List String) (w : ω) (h : ScanInv pe s)
    (hq : s.toScan = pkgPath :: rest) :
    ScanInv pe { s with
      toScan := rest
      st := { s.st with world := w, trace := s.st.trace ++ [Event.resolve pkgPath] } } := by
  have e1 : filteredOf [Event.resolve pkgPath] = [] := rfl
  have e2 : insertsOf [Event.resolve pkgPath] = [] := rfl
  have e3 : pushedOf [Event.resolve pkgPath] = [] := rfl
  have e4 : resolvedOf [Event.resolve pkgPath] = [pkgPath] := rfl
  constructor
  · show s.seen = (filteredOf (s.st.trace ++ _)).reverse ++ _
    rw [filteredOf_append, e1, List.append_nil, h.seen_eq]
  · exact h.seen_nodup
  · show s.st.importMap = List.map _ (_ :: List.filter _ (filteredOf (s.st.trace ++ _)))
    rw [filteredOf_append, e1, List.append_nil, h.map_eq]
  · show insertsOf (s.st.trace ++ _) = s.st.importMap
    rw [insertsOf_append, e2, List.append_nil, h.inserts_eq]
  · show pushedOf (s.st.trace ++ _) = _ :: List.filter _ (filteredOf (s.st.trace ++ _))
    rw [pushedOf_append, e3, filteredOf_append, e1, List.append_nil, List.append_nil, h.pushed_eq]
  · show resolvedOf (s.st.trace ++ _) ++ rest = pushedOf (s.st.trace ++ _)
    rw [pushedOf_append, e3, resolvedOf_append, e4, List.append_nil, ← h.queue_eq, hq]
    simp

theorem scanLoop_inv {ω ε : Type} (sys : Sys ω ε) (pe : PackageExtractorOptions) (fuel : Nat)
    (s : ScanState ω) (h : ScanInv pe s) : ScanInv pe (scanLoop sys pe fuel s).state := by
  induction fuel generalizing s with
  | zero => exact h
  | succ n ih =>
    unfold scanLoop
    cases hq : s.toScan with
    | nil => exact h
    | cons pkgPath rest =>
      simp only
      cases hi : sys.Import s.st.world pkgPath with
      | mk r w =>
        cases r with
        | error err => exact scanPop_inv pe s pkgPath rest w h hq
        | ok pkg =>
          exact ih _ (scanImports_inv pe _ _ (scanPop_inv pe s pkgPath rest w h hq))

theorem discover_inv {ω ε : Type} (sys : Sys ω ε) (pe : PackageExtractorOptions) (fuel : Nat)
    (w : ω) : ScanInv pe (discover sys pe fuel w).state :=
  scanLoop_inv sys pe fuel _ (scanInit_inv pe w)

/-! ### The extraction phase leaves the map alone -/

theorem extractFile_frame {ω ε : Type} (sys : Sys ω ε) (srcPath dstPath : String)
    (st : State ω) :
    (extractFile sys srcPath dstPath st).2.importMap = st.importMap ∧
      (extractFile sys srcPath dstPath st).2.trace = st.trace := by
  unfold extractFile
  rcases hp : sys.ParseFile st.world srcPath with ⟨r, w⟩
  cases r with
  | error err => exact ⟨rfl, rfl⟩
  | ok f =>
    simp only [updateImports]
    cases hu : (updateImportSpecs sys st.importMap f.Imports).1 with
    | some err => exact ⟨rfl, rfl⟩
    | none =>
      simp only
      rcases hc : sys.Create w dstPath with ⟨c, w1⟩
      cases c with
      | some err => exact ⟨rfl, rfl⟩
      | none =>
        simp only
        rcases hf : sys.Fprint w1 dstPath
          { f with Imports := (updateImportSpecs sys st.importMap f.Imports).2 } with ⟨c2, w2⟩
        cases c2 with
        | some err => exact ⟨rfl, rfl⟩
        | none =>
          simp only
          rcases hfl : sys.Flush w2 dstPath with ⟨c3, w3⟩
          cases c3 with
          | some err => exact ⟨rfl, rfl⟩
          | none => exact ⟨rfl, rfl⟩

theorem extractFiles_frame {ω ε : Type} (sys : Sys ω ε) (pe : PackageExtractorOptions)
    (srcDir newImportPath : String) (files : List String) (st : State ω) :
    (extractFiles sys pe srcDir newImportPath files st).2.importMap = st.importMap ∧
      (extractFiles sys pe srcDir newImportPath files st).2.trace = st.trace := by
  induction files generalizing st with
  | nil => exact ⟨rfl, rfl⟩
  | cons f rest ih =>
    unfold extractFiles
    have hf := extractFile_frame sys (sys.Join [srcDir, f])
      (sys.Join [pe.OutputRoot, newImportPath, f]) st
    rcases he : extractFile sys (sys.Join [srcDir, f])
      (sys.Join [pe.OutputRoot, newImportPath, f]) st with ⟨e, st1⟩
    rw [he] at hf
    cases e with
    | some err => exact hf
    | none =>
      simp only
      have := ih st1
      exact ⟨this.1.trans hf.1, this.2.trans hf.2⟩

theorem extractPackage_frame {ω ε : Type} (sys : Sys ω ε) (pe : PackageExtractorOptions)
    (importPath : String) (st : State ω) :
    (extractPackage sys pe importPath st).2.importMap = st.importMap ∧
      (extractPackage sys pe importPath st).2.trace =
        st.trace ++ [Event.extract importPath, Event.resolve importPath] := by
  unfold extractPackage
  simp only
  rcases hi : sys.Import st.world importPath with ⟨r, w⟩
  cases r with
  | error err => exact ⟨rfl, rfl⟩
  | ok pkg =>
    simp only
    exact extractFiles_frame sys pe _ _ pkg.GoFiles _

theorem extractAll_frame {ω ε : Type} (sys : Sys ω ε) (pe : PackageExtractorOptions)
    (keys : List String) (st : State ω) :
    (extractAll sys pe keys st).2.importMap = st.importMap ∧
      ∃ t, (extractAll sys pe keys st).2.trace = st.trace ++ t ∧
        insertsOf t = [] ∧ filteredOf t = [] ∧ pushedOf t = [] := by
  induction keys generalizing st with
  | nil => exact ⟨rfl, [], (List.append_nil _).symm, rfl, rfl, rfl⟩
  | cons k rest ih =>
    unfold extractAll
    have hp := extractPackage_frame sys pe k st
    rcases he : extractPackage sys pe k st with ⟨e, st1⟩
    rw [he] at hp
    cases e with
    | some err => exact ⟨hp.1, _, hp.2, rfl, rfl, rfl⟩
    | none =>
      simp only
      obtain ⟨h1, t, h2, h3, h4, h5⟩ := ih st1
      refine ⟨h1.trans hp.1, [Event.extract k, Event.resolve k] ++ t, ?_, ?_, ?_, ?_⟩
      · rw [h2, hp.2, List.append_assoc]
      · rw [insertsOf_append, h3]; rfl
      · rw [filteredOf_append, h4]; rfl
      · rw [pushedOf_append, h5]; rfl

theorem Run_frame {ω ε : Type} (sys : Sys ω ε) (pe : PackageExtractorOptions)
    (order : ImportMap → List String) (fuel : Nat) (w : ω) :
    (Run sys pe order fuel w).state.importMap = (discover sys pe fuel w).state.st.importMap ∧
      ∃ t, (Run sys pe order fuel w).state.trace = (discover sys pe fuel w).state.st.trace ++ t ∧
        insertsOf t = [] ∧ filteredOf t = [] ∧ pushedOf t = [] := by
  unfold Run
  cases hd : discover sys pe fuel w with
  | timeout s => exact ⟨rfl, [], (List.append_nil _).symm, rfl, rfl, rfl⟩
  | ret e s => exact extractAll_frame sys pe (order s.st.importMap) s.st

theorem ScanInv.keys_nodup {ω : Type} {pe : PackageExtractorOptions} {s : ScanState ω}
    (h : ScanInv pe s) : (mapKeys s.st.importMap).Nodup := by
  rw [h.keys_eq]
  refine List.nodup_cons.2 ⟨fun hm => h.root_not_filtered (List.mem_filter.1 hm).1, ?_⟩
  exact h.filtered_nodup.sublist (List.filter_sublist _)

theorem ScanInv.pushed_nodup {ω : Type} {pe : PackageExtractorOptions} {s : ScanState ω}
    (h : ScanInv pe s) : (pushedOf s.st.trace).Nodup := by
  rw [h.pushed_eq, ← h.keys_eq]
  exact h.keys_nodup

theorem ScanInv.resolved_nodup {ω : Type} {pe : PackageExtractorOptions} {s : ScanState ω}
    (h : ScanInv pe s) : (resolvedOf s.st.trace).Nodup := by
  have := h.pushed_nodup
  rw [← h.queue_eq] at this
  exact (List.nodup_append.1 this).1

theorem ScanInv.lookup_root {ω : Type} {pe : PackageExtractorOptions} {s : ScanState ω}
    (h : ScanInv pe s) :
    mapLookup s.st.importMap pe.InitialPkg = some (pe.ImportRewriter pe.InitialPkg) := by
  rw [h.map_eq]
  exact mapLookup_rewriter _ _ _ (List.mem_cons_self _ _)

theorem ScanInv.key_cases {ω : Type} {pe : PackageExtractorOptions} {s : ScanState ω}
    (h : ScanInv pe s) (k : String) (hk : k ∈ mapKeys s.st.importMap) :
    k = pe.InitialPkg ∨ pe.Filter k = true := by
  rw [h.keys_eq] at hk
  rcases List.mem_cons.1 hk with e | e
  · exact Or.inl e
  · exact Or.inr (List.mem_filter.1 e).2

/-! ### What the loop over the imports does to `seen` -/

theorem scanImport_seen {ω : Type} (pe : PackageExtractorOptions) (a : String)
    (s : ScanState ω) (x : String) :
    x ∈ (scanImport pe a s).seen ↔ x = a ∨ x ∈ s.seen := by
  unfold scanImport
  by_cases hs : a ∈ s.seen
  · simp only [hs, if_true]
    constructor
    · exact Or.inr
    · rintro (e | e)
      · rw [e]; exact hs
      · exact e
  · by_cases hf : pe.Filter a = true
    · simp only [hs, if_false, hf, if_true, List.mem_cons]
    · have hf2 : pe.Filter a = false := by simpa using hf
      simp only [hs, if_false, hf2, Bool.false_eq_true, List.mem_cons]

theorem scanImport_resolved {ω : Type} (pe : PackageExtractorOptions) (a : String)
    (s : ScanState ω) :
    resolvedOf (scanImport pe a s).st.trace = resolvedOf s.st.trace := by
  unfold scanImport
  by_cases hs : a ∈ s.seen
  · simp only [hs, if_true]
  · by_cases hf : pe.Filter a = true
    · simp only [hs, if_false, hf, if_true]
      show resolvedOf (s.st.trace ++ _) = _
      rw [resolvedOf_append]
      exact List.append_nil _
    · have hf2 : pe.Filter a = false := by simpa using hf
      simp only [hs, if_false, hf2, Bool.false_eq_true]
      show resolvedOf (s.st.trace ++ _) = _
      rw [resolvedOf_append]
      exact List.append_nil _

theorem scanImports_seen {ω : Type} (pe : PackageExtractorOptions) (l : List String)
    (s : ScanState ω) (x : String) :
    x ∈ (scanImports pe l s).seen ↔ x ∈ l ∨ x ∈ s.seen := by
  induction l generalizing s with
  | nil => simp [scanImports]
  | cons a l ih =>
    simp only [scanImports, ih, scanImport_seen, List.mem_cons]
    tauto

theorem scanImports_resolved {ω : Type} (pe : PackageExtractorOptions) (l : List String)
    (s : ScanState ω) :
    resolvedOf (scanImports pe l s).st.trace = resolvedOf s.st.trace := by
  induction l generalizing s with
  | nil => rfl
  | cons a l ih =>
    simp only [scanImports, ih, scanImport_resolved]

/-- The facts the scan keeps when the resolver answers `pkgs` on the finite
universe `U`: everything seen lies in `U`, and the imports of everything
resolved have been seen. -/
theorem scanLoop_terminates {ω ε : Type} (sys : Sys ω ε) (pe : PackageExtractorOptions)
    (pkgs : String → Package) (U : List String)
    (hres : ∀ w, ∀ x ∈ U, (sys.Import w x).1 = Except.ok (pkgs x))
    (hU : ∀ x ∈ U, ∀ y ∈ (pkgs x).Imports, y ∈ U)
    (fuel : Nat) (s : ScanState ω) (h : ScanInv pe s)
    (hseen : ∀ x ∈ s.seen, x ∈ U)
    (himp : ∀ x ∈ resolvedOf s.st.trace, ∀ y ∈ (pkgs x).Imports, y ∈ s.seen)
    (hfuel : U.dedup.length < fuel + (resolvedOf s.st.trace).length) :
    ∃ s1, scanLoop sys pe fuel s = Result.ret none s1 ∧ ScanInv pe s1 ∧ s1.toScan = [] ∧
      (∀ x ∈ s1.seen, x ∈ U) ∧
      (∀ x ∈ resolvedOf s1.st.trace, ∀ y ∈ (pkgs x).Imports, y ∈ s1.seen) := by
  have hsub : ∀ s2 : ScanState ω, ScanInv pe s2 → (∀ x ∈ s2.seen, x ∈ U) →
      (resolvedOf s2.st.trace).length ≤ U.dedup.length := by
    intro s2 h2 hs2
    apply (List.Nodup.subperm h2.resolved_nodup _).length_le
    intro x hx
    apply List.mem_dedup.2
    apply hs2
    apply h2.keys_seen
    rw [h2.keys_eq, ← h2.pushed_eq, ← h2.queue_eq]
    exact List.mem_append_left _ hx
  induction fuel generalizing s with
  | zero =>
    have := hsub s h hseen
    omega
  | succ n ih =>
    unfold scanLoop
    cases hq : s.toScan with
    | nil => exact ⟨s, rfl, h, hq, hseen, himp⟩
    | cons pkgPath rest =>
      simp only
      have hpU : pkgPath ∈ U := by
        apply hseen
        apply h.keys_seen
        rw [h.keys_eq, ← h.pushed_eq, ← h.queue_eq, hq]
        simp
      have hr := hres s.st.world pkgPath hpU
      rcases hi : sys.Import s.st.world pkgPath with ⟨r, w⟩
      rw [hi] at hr
      simp only at hr
      subst hr
      simp only
      have hpop := scanPop_inv pe s pkgPath rest w h hq
      apply ih _ (scanImports_inv pe _ _ hpop)
      · intro x hx
        rcases (scanImports_seen pe _ _ x).1 hx with e | e
        · exact hU pkgPath hpU x e
        · exact hseen x e
      · intro x hx y hy
        rw [scanImports_resolved] at hx
        apply (scanImports_seen pe _ _ y).2
        have hx2 : x ∈ resolvedOf s.st.trace ++ [pkgPath] := by
          have e4 : resolvedOf [Event.resolve pkgPath] = [pkgPath] := rfl
          rw [← e4, ← resolvedOf_append]
          exact hx
        rcases List.mem_append.1 hx2 with e | e
        · exact Or.inr (himp x e y hy)
        · rw [List.mem_singleton.1 e] at hy
          exact Or.inl hy
      · rw [scanImports_resolved]
        have e5 : resolvedOf (s.st.trace ++ [Event.resolve pkgPath])
            = resolvedOf s.st.trace ++ [pkgPath] := by
          rw [resolvedOf_append]; rfl
        show U.dedup.length < n + (resolvedOf (s.st.trace ++ [Event.resolve pkgPath])).length
        rw [e5, List.length_append, List.length_singleton]
        omega

/-- The discovery phase on a finite graph whose resolutions all succeed
returns without error, with an empty frontier, and the imports of every
resolved identifier have been seen. -/
theorem discover_terminates {ω ε : Type} (sys : Sys ω ε) (pe : PackageExtractorOptions)
    (pkgs : String → Package) (U : List String)
    (hres : ∀ w, ∀ x ∈ U, (sys.Import w x).1 = Except.ok (pkgs x))
    (hroot : pe.InitialPkg ∈ U)
    (hU : ∀ x ∈ U, ∀ y ∈ (pkgs x).Imports, y ∈ U)
    (fuel : Nat) (hfuel : U.dedup.length < fuel) (w : ω) :
    ∃ s1, discover sys pe fuel w = Result.ret none s1 ∧ ScanInv pe s1 ∧ s1.toScan = [] ∧
      (∀ x ∈ s1.seen, x ∈ U) ∧
      (∀ x ∈ resolvedOf s1.st.trace, ∀ y ∈ (pkgs x).Imports, y ∈ s1.seen) := by
  apply scanLoop_terminates sys pe pkgs U hres hU fuel _ (scanInit_inv pe w)
  · intro x hx
    have : x = pe.InitialPkg := by simpa [scanInit] using hx
    rw [this]; exact hroot
  · intro x hx
    have : resolvedOf (scanInit pe (insertRoot pe (NewPackageExtractor w))).st.trace = [] := rfl
    rw [this] at hx
    cases hx
  · omega

/-! ### The map only grows -/

theorem mapLookup_append_left (m t : ImportMap) (k v : String) (h : mapLookup m k = some v) :
    mapLookup (m ++ t) k = some v := by
  induction m with
  | nil => cases h
  | cons p m ih =>
    obtain ⟨a, b⟩ := p
    by_cases e : a = k
    · simpa [mapLookup, e] using h
    · simp only [mapLookup, e, if_false, List.cons_append] at h ⊢
      exact ih h

theorem scanImport_map {ω : Type} (pe : PackageExtractorOptions) (a : String)
    (s : ScanState ω) (h : ScanInv pe s) :
    ∃ t, (scanImport pe a s).st.importMap = s.st.importMap ++ t := by
  unfold scanImport
  by_cases hs : a ∈ s.seen
  · exact ⟨[], by simp only [hs, if_true, List.append_nil]⟩
  · have hk : a ∉ mapKeys s.st.importMap := fun hk => hs (h.keys_seen _ hk)
    by_cases hf : pe.Filter a = true
    · simp only [hs, if_false, hf, if_true]
      exact ⟨_, mapAssign_of_not_mem _ _ _ hk⟩
    · have hf2 : pe.Filter a = false := by simpa using hf
      simp only [hs, if_false, hf2, Bool.false_eq_true]
      exact ⟨[], (List.append_nil _).symm⟩

theorem scanImports_map {ω : Type} (pe : PackageExtractorOptions) (l : List String)
    (s : ScanState ω) (h : ScanInv pe s) :
    ∃ t, (scanImports pe l s).st.importMap = s.st.importMap ++ t := by
  induction l generalizing s with
  | nil => exact ⟨[], (List.append_nil _).symm⟩
  | cons a l ih =>
    obtain ⟨t1, h1⟩ := scanImport_map pe a s h
    obtain ⟨t2, h2⟩ := ih _ (scanImport_inv pe a s h)
    exact ⟨t1 ++ t2, by simp only [scanImports, h2, h1, List.append_assoc]⟩

theorem scanLoop_map {ω ε : Type} (sys : Sys ω ε) (pe : PackageExtractorOptions) (fuel : Nat)
    (s : ScanState ω) (h : ScanInv pe s) :
    ∃ t, (scanLoop sys pe fuel s).state.st.importMap = s.st.importMap ++ t := by
  induction fuel generalizing s with
  | zero => exact ⟨[], (List.append_nil _).symm⟩
  | succ n ih =>
    unfold scanLoop
    cases hq : s.toScan with
    | nil => exact ⟨[], (List.append_nil _).symm⟩
    | cons pkgPath rest =>
      simp only
      rcases hi : sys.Import s.st.world pkgPath with ⟨r, w⟩
      cases r with
      | error err => exact ⟨[], (List.append_nil _).symm⟩
      | ok pkg =>
        simp only
        have hpop := scanPop_inv pe s pkgPath rest w h hq
        obtain ⟨t1, h1⟩ := scanImports_map pe pkg.Imports _ hpop
        obtain ⟨t2, h2⟩ := ih _ (scanImports_inv pe _ _ hpop)
        exact ⟨t1 ++ t2, by rw [h2, h1, List.append_assoc]⟩

theorem scanLoop_succ_map {ω ε : Type} (sys : Sys ω ε) (pe : PackageExtractorOptions)
    (fuel : Nat) (s : ScanState ω) (h : ScanInv pe s) :
    ∃ t, (scanLoop sys pe (fuel + 1) s).state.st.importMap =
      (scanLoop sys pe fuel s).state.st.importMap ++ t := by
  induction fuel generalizing s with
  | zero => exact scanLoop_map sys pe 1 s h
  | succ n ih =>
    rw [scanLoop.eq_def sys pe (n + 1 + 1) s, scanLoop.eq_def sys pe (n + 1) s]
    simp only
    cases hq : s.toScan with
    | nil => exact ⟨[], (List.append_nil _).symm⟩
    | cons pkgPath rest =>
      simp only
      rcases hi : sys.Import s.st.world pkgPath with ⟨r, w⟩
      cases r with
      | error err => exact ⟨[], (List.append_nil _).symm⟩
      | ok pkg =>
        simp only
        exact ih _ (scanImports_inv pe _ _ (scanPop_inv pe s pkgPath rest w h hq))

/-! ### The rewriting of the import specs -/

theorem unquotePlain_quotePlain (s : String) : unquotePlain (quotePlain s) = Except.ok s := by
  unfold unquotePlain quotePlain
  simp

theorem updateImportSpecs_unmapped {ω ε : Type} (sys : Sys ω ε) (m : ImportMap)
    (specs : List ImportSpec) (i : Nat) (sp : ImportSpec) (p : String)
    (hi : specs[i]? = some sp) (hp : sys.Unquote sp.PathValue = Except.ok p)
    (hv : mapLookup m p = none) :
    (updateImportSpecs sys m specs).2[i]? = some sp := by
  induction specs generalizing i with
  | nil => simp at hi
  | cons a rest ih =>
    unfold updateImportSpecs
    cases hu : sys.Unquote a.PathValue with
    | error err => exact hi
    | ok q =>
      simp only
      cases i with
      | zero =>
        simp only [List.getElem?_cons_zero, Option.some.injEq] at hi ⊢
        subst hi
        rw [hu] at hp
        cases hp
        rw [hv]
      | succ j =>
        simp only [List.getElem?_cons_succ] at hi ⊢
        exact ih j hi

theorem updateImportSpecs_mapped {ω ε : Type} (sys : Sys ω ε) (m : ImportMap)
    (specs : List ImportSpec) (i : Nat) (sp : ImportSpec) (p v : String)
    (hok : (updateImportSpecs sys m specs).1 = none)
    (hi : specs[i]? = some sp) (hp : sys.Unquote sp.PathValue = Except.ok p)
    (hv : mapLookup m p = some v) :
    (updateImportSpecs sys m specs).2[i]? = some { sp with PathValue := sys.Quote v } := by
  induction specs generalizing i with
  | nil => simp at hi
  | cons a rest ih =>
    unfold updateImportSpecs at hok ⊢
    cases hu : sys.Unquote a.PathValue with
    | error err => rw [hu] at hok; cases hok
    | ok q =>
      rw [hu] at hok
      simp only at hok ⊢
      cases i with
      | zero =>
        simp only [List.getElem?_cons_zero, Option.some.injEq] at hi ⊢
        subst hi
        rw [hu] at hp
        cases hp
        rw [hv]
      | succ j =>
        simp only [List.getElem?_cons_succ] at hi ⊢
        exact ih j hok hi

/-! ### The values of the map -/

theorem mapLookup_rewriter_some (f : String → String) (l : List String) (k v : String)
    (h : mapLookup (l.map fun x => (x, f x)) k = some v) : v = f k := by
  have hk : k ∈ l := by
    by_contra hn
    have : mapLookup (l.map fun x => (x, f x)) k = none :=
      (mapLookup_eq_none_iff _ _).2 (by rw [mapKeys_rewriter]; exact hn)
    rw [this] at h
    cases h
  rw [mapLookup_rewriter f l k hk] at h
  exact (Option.some.inj h).symm

theorem ScanInv.value_eq {ω : Type} {pe : PackageExtractorOptions} {s : ScanState ω}
    (h : ScanInv pe s) (k v : String) (hk : mapLookup s.st.importMap k = some v) :
    v = pe.ImportRewriter k := by
  rw [h.map_eq] at hk
  exact mapLookup_rewriter_some _ _ _ _ hk

theorem ScanInv.mem_value {ω : Type} {pe : PackageExtractorOptions} {s : ScanState ω}
    (h : ScanInv pe s) (k v : String) (hk : (k, v) ∈ s.st.importMap) :
    v = pe.ImportRewriter k := by
  rw [h.map_eq] at hk
  obtain ⟨x, _, hx⟩ := List.mem_map.1 hk
  cases hx
  rfl

theorem extractPairs_eq {ω ε : Type} (sys : Sys ω ε) (pe : PackageExtractorOptions)
    (m : List (String × String)) (hm : ∀ k v, (k, v) ∈ m → v = pe.ImportRewriter k)
    (st : State ω) : extractAll sys pe (mapKeys m) st = extractPairs sys pe m st := by
  induction m generalizing st with
  | nil => rfl
  | cons p m ih =>
    obtain ⟨k, v⟩ := p
    have hv : v = pe.ImportRewriter k := hm k v (List.mem_cons_self _ _)
    subst hv
    have hrest : ∀ k1 v1, (k1, v1) ∈ m → v1 = pe.ImportRewriter k1 :=
      fun k1 v1 h1 => hm k1 v1 (List.mem_cons_of_mem _ h1)
    show (match extractPackage sys pe k st with
      | (some err, st1) => (some err, st1)
      | (none, st1) => extractAll sys pe (mapKeys m) st1) =
      (match extractPair sys pe k (pe.ImportRewriter k) st with
      | (some err, st1) => (some err, st1)
      | (none, st1) => extractPairs sys pe m st1)
    have he : extractPair sys pe k (pe.ImportRewriter k) st = extractPackage sys pe k st := rfl
    rw [he]
    rcases extractPackage sys pe k st with ⟨e, st1⟩
    cases e with
    | some err => rfl
    | none => exact ih hrest st1

/-! ### What `updateImports` leaves alone -/

theorem updateImportSpecs_length {ω ε : Type} (sys : Sys ω ε) (m : ImportMap)
    (specs : List ImportSpec) :
    (updateImportSpecs sys m specs).2.length = specs.length := by
  induction specs with
  | nil => rfl
  | cons a rest ih =>
    unfold updateImportSpecs
    cases hu : sys.Unquote a.PathValue with
    | error err => rfl
    | ok q => simp only [List.length_cons, ih]

theorem updateImportSpecs_frame {ω ε : Type} (sys : Sys ω ε) (m : ImportMap)
    (specs : List ImportSpec) (i : Nat) (sp : ImportSpec) (hi : specs[i]? = some sp) :
    ∃ sp1, (updateImportSpecs sys m specs).2[i]? = some sp1 ∧
      sp1.Name = sp.Name ∧ sp1.PathPos = sp.PathPos ∧ sp1.Comment = sp.Comment ∧
      (sp1.PathValue = sp.PathValue ∨
        ∃ p v, sys.Unquote sp.PathValue = Except.ok p ∧ mapLookup m p = some v ∧
          sp1.PathValue = sys.Quote v) := by
  induction specs generalizing i with
  | nil => simp at hi
  | cons a rest ih =>
    unfold updateImportSpecs
    cases hu : sys.Unquote a.PathValue with
    | error err => exact ⟨sp, hi, rfl, rfl, rfl, Or.inl rfl⟩
    | ok q =>
      simp only
      cases i with
      | zero =>
        simp only [List.getElem?_cons_zero, Option.some.injEq] at hi ⊢
        subst hi
        cases hl : mapLookup m q with
        | none => exact ⟨a, rfl, rfl, rfl, rfl, Or.inl rfl⟩
        | some v => exact ⟨_, rfl, rfl, rfl, rfl, Or.inr ⟨q, v, hu, hl, rfl⟩⟩
      | succ j =>
        simp only [List.getElem?_cons_succ] at hi ⊢
        exact ih j hi

/-! ### The extraction loops stop at the first error -/

theorem Result.eq_ret_of_returned {ε σ : Type} (r : Result ε σ) (h : r.returned = true) :
    r = Result.ret r.err r.state := by
  cases r with
  | ret e s => rfl
  | timeout s => cases h

theorem Run_of_returned {ω ε : Type} (sys : Sys ω ε) (pe : PackageExtractorOptions)
    (order : ImportMap → List String) (fuel : Nat) (w : ω)
    (h : (discover sys pe fuel w).returned = true) :
    Run sys pe order fuel w =
      Result.ret
        (extractAll sys pe (order (discover sys pe fuel w).state.st.importMap)
          (discover sys pe fuel w).state.st).1
        (extractAll sys pe (order (discover sys pe fuel w).state.st.importMap)
          (discover sys pe fuel w).state.st).2 := by
  unfold Run
  cases hd : discover sys pe fuel w with
  | ret e s => rfl
  | timeout s => rw [hd] at h; cases h

theorem extractAll_append {ω ε : Type} (sys : Sys ω ε) (pe : PackageExtractorOptions)
    (pre post : List String) (st : State ω) :
    extractAll sys pe (pre ++ post) st =
      match extractAll sys pe pre st with
      | (some err, st1) => (some err, st1)
      | (none, st1) => extractAll sys pe post st1 := by
  induction pre generalizing st with
  | nil => rfl
  | cons k rest ih =>
    simp only [List.cons_append, extractAll]
    rcases extractPackage sys pe k st with ⟨e, st1⟩
    cases e with
    | some err => rfl
    | none => exact ih st1

theorem extractFiles_append {ω ε : Type} (sys : Sys ω ε) (pe : PackageExtractorOptions)
    (srcDir newImportPath : String) (pre post : List String) (st : State ω) :
    extractFiles sys pe srcDir newImportPath (pre ++ post) st =
      match extractFiles sys pe srcDir newImportPath pre st with
      | (some err, st1) => (some err, st1)
      | (none, st1) => extractFiles sys pe srcDir newImportPath post st1 := by
  induction pre generalizing st with
  | nil => rfl
  | cons f rest ih =>
    simp only [List.cons_append, extractFiles]
    rcases extractFile sys (sys.Join [srcDir, f])
      (sys.Join [pe.OutputRoot, newImportPath, f]) st with ⟨e, st1⟩
    cases e with
    | some err => rfl
    | none => exact ih st1

theorem extractAll_stops {ω ε : Type} (sys : Sys ω ε) (pe : PackageExtractorOptions)
    (pre post : List String) (k : String) (st st1 st2 : State ω) (err : ε)
    (hpre : extractAll sys pe pre st = (none, st1))
    (hk : extractPackage sys pe k st1 = (some err, st2)) :
    extractAll sys pe (pre ++ k :: post) st = (some err, st2) := by
  rw [extractAll_append, hpre]
  simp only [extractAll, hk]

theorem extractAll_none_prefix {ω ε : Type} (sys : Sys ω ε) (pe : PackageExtractorOptions)
    (pre post : List String) (k : String) (st : State ω)
    (h : (extractAll sys pe (pre ++ k :: post) st).1 = none) :
    (extractAll sys pe pre st).1 = none ∧
      (extractPackage sys pe k (extractAll sys pe pre st).2).1 = none := by
  rw [extractAll_append] at h
  rcases hp : extractAll sys pe pre st with ⟨e, st1⟩
  rw [hp] at h
  cases e with
  | some err => cases h
  | none =>
    simp only [extractAll] at h
    rcases hk : extractPackage sys pe k st1 with ⟨e2, st2⟩
    rw [hk] at h
    cases e2 with
    | some err => cases h
    | none => exact ⟨rfl, rfl⟩

theorem extractPackage_fails {ω ε : Type} (sys : Sys ω ε) (pe : PackageExtractorOptions)
    (x : String) (e : ε) (hx : ∀ w, (sys.Import w x).1 = Except.error e) (st : State ω) :
    (extractPackage sys pe x st).1 = some e := by
  unfold extractPackage
  simp only
  have := hx st.world
  rcases hi : sys.Import st.world x with ⟨r, w⟩
  rw [hi] at this
  simp only at this
  subst this
  rfl

theorem extractAll_fails {ω ε : Type} (sys : Sys ω ε) (pe : PackageExtractorOptions)
    (x : String) (e : ε) (hx : ∀ w, (sys.Import w x).1 = Except.error e)
    (ks : List String) (hmem : x ∈ ks) (st : State ω) :
    ∃ e1, (extractAll sys pe ks st).1 = some e1 := by
  induction ks generalizing st with
  | nil => cases hmem
  | cons k rest ih =>
    unfold extractAll
    rcases hk : extractPackage sys pe k st with ⟨r, st1⟩
    cases r with
    | some err => exact ⟨err, rfl⟩
    | none =>
      simp only
      have hne : x ≠ k := by
        intro hxk
        have := extractPackage_fails sys pe x e hx st
        rw [hxk, hk] at this
        cases this
      rcases List.mem_cons.1 hmem with h1 | h1
      · exact absurd h1 hne
      · exact ih h1 st1

theorem scanLoop_error {ω ε : Type} (sys : Sys ω ε) (pe : PackageExtractorOptions)
    (fuel : Nat) (s : ScanState ω) (h : ScanInv pe s) (e : ε)
    (he : (scanLoop sys pe fuel s).err = some e) :
    ∃ x w, x ∈ mapKeys (scanLoop sys pe fuel s).state.st.importMap ∧
      (sys.Import w x).1 = Except.error e := by
  induction fuel generalizing s with
  | zero => cases he
  | succ n ih =>
    unfold scanLoop at he ⊢
    cases hq : s.toScan with
    | nil => rw [hq] at he; cases he
    | cons pkgPath rest =>
      rw [hq] at he
      simp only at he ⊢
      rcases hi : sys.Import s.st.world pkgPath with ⟨r, w⟩
      rw [hi] at he
      cases r with
      | error err =>
        simp only [Result.err, Option.some.injEq] at he
        subst he
        refine ⟨pkgPath, s.st.world, ?_, by rw [hi]⟩
        show pkgPath ∈ mapKeys s.st.importMap
        rw [h.keys_eq, ← h.pushed_eq, ← h.queue_eq, hq]
        simp
      | ok pkg =>
        simp only at he ⊢
        exact ih _ (scanImports_inv pe _ _ (scanPop_inv pe s pkgPath rest w h hq)) he

/-! ### The keys of the map are reached from the root -/

theorem scanImport_keys {ω : Type} (pe : PackageExtractorOptions) (a : String)
    (s : ScanState ω) (h : ScanInv pe s) (x : String) :
    x ∈ mapKeys (scanImport pe a s).st.importMap ↔
      x ∈ mapKeys s.st.importMap ∨ (x = a ∧ a ∉ s.seen ∧ pe.Filter a = true) := by
  unfold scanImport
  by_cases hs : a ∈ s.seen
  · simp only [hs, if_true, not_true_eq_false, false_and, and_false, or_false]
  · have hk : a ∉ mapKeys s.st.importMap := fun hk => hs (h.keys_seen _ hk)
    by_cases hf : pe.Filter a = true
    · simp only [hs, if_false, hf, if_true, not_false_eq_true, and_true]
      show x ∈ mapKeys (mapAssign s.st.importMap a (pe.ImportRewriter a)) ↔ _
      rw [mapAssign_of_not_mem _ _ _ hk]
      simp [mapKeys]
    · have hf2 : pe.Filter a = false := by simpa using hf
      simp only [hs, if_false, hf2, Bool.false_eq_true, and_false, or_false]

theorem scanImport_sound {ω ε : Type} (sys : Sys ω ε) (pe : PackageExtractorOptions)
    (a : String) (s : ScanState ω) (h : ScanInv pe s) (p : String) (w : ω) (pkg : Package)
    (hp : p ∈ mapKeys s.st.importMap) (hpr : ReachVia sys pe p)
    (hi : (sys.Import w p).1 = Except.ok pkg) (ha : a ∈ pkg.Imports)
    (hsound : KeysSound sys pe s.st.importMap) :
    KeysSound sys pe (scanImport pe a s).st.importMap := by
  intro k hk
  rcases (scanImport_keys pe a s h k).1 hk with h1 | ⟨h1, h2, h3⟩
  · obtain ⟨hr, hj⟩ := hsound k h1
    refine ⟨hr, ?_⟩
    rcases hj with e | ⟨hf, q, hq, hne, hw⟩
    · exact Or.inl e
    · exact Or.inr ⟨hf, q, (scanImport_keys pe a s h q).2 (Or.inl hq), hne, hw⟩
  · subst h1
    refine ⟨ReachVia.step hpr hi ha h3, Or.inr ⟨h3, p, ?_, ?_, w, pkg, hi, ha⟩⟩
    · exact (scanImport_keys pe k s h p).2 (Or.inl hp)
    · intro e
      rw [e] at hp
      exact h2 (h.keys_seen _ hp)

theorem scanImports_sound {ω ε : Type} (sys : Sys ω ε) (pe : PackageExtractorOptions)
    (l : List String) (s : ScanState ω) (h : ScanInv pe s) (p : String) (w : ω)
    (pkg : Package) (hp : p ∈ mapKeys s.st.importMap) (hpr : ReachVia sys pe p)
    (hi : (sys.Import w p).1 = Except.ok pkg) (hl : ∀ a ∈ l, a ∈ pkg.Imports)
    (hsound : KeysSound sys pe s.st.importMap) :
    KeysSound sys pe (scanImports pe l s).st.importMap := by
  induction l generalizing s with
  | nil => exact hsound
  | cons a l ih =>
    apply ih (scanImport pe a s) (scanImport_inv pe a s h)
    · exact (scanImport_keys pe a s h p).2 (Or.inl hp)
    · exact fun b hb => hl b (List.mem_cons_of_mem _ hb)
    · exact scanImport_sound sys pe a s h p w pkg hp hpr hi (hl a (List.mem_cons_self _ _)) hsound

theorem scanLoop_sound {ω ε : Type} (sys : Sys ω ε) (pe : PackageExtractorOptions)
    (fuel : Nat) (s : ScanState ω) (h : ScanInv pe s)
    (hsound : KeysSound sys pe s.st.importMap) :
    KeysSound sys pe (scanLoop sys pe fuel s).state.st.importMap := by
  induction fuel generalizing s with
  | zero => exact hsound
  | succ n ih =>
    unfold scanLoop
    cases hq : s.toScan with
    | nil => exact hsound
    | cons pkgPath rest =>
      simp only
      rcases hi : sys.Import s.st.world pkgPath with ⟨r, w⟩
      cases r with
      | error err => exact hsound
      | ok pkg =>
        simp only
        have hpop := scanPop_inv pe s pkgPath rest w h hq
        have hpk : pkgPath ∈ mapKeys s.st.importMap := by
          rw [h.keys_eq, ← h.pushed_eq, ← h.queue_eq, hq]
          simp
        apply ih _ (scanImports_inv pe _ _ hpop)
        exact scanImports_sound sys pe pkg.Imports _ hpop pkgPath s.st.world pkg hpk
          (hsound pkgPath hpk).1 (by rw [hi]) (fun a ha => ha) hsound

theorem discover_sound {ω ε : Type} (sys : Sys ω ε) (pe : PackageExtractorOptions)
    (fuel : Nat) (w : ω) :
    KeysSound sys pe (discover sys pe fuel w).state.st.importMap := by
  apply scanLoop_sound sys pe fuel _ (scanInit_inv pe w)
  intro k hk
  have : k = pe.InitialPkg := by
    simpa [scanInit, insertRoot, NewPackageExtractor, mapAssign, mapKeys] using hk
  rw [this]
  exact ⟨ReachVia.root, Or.inl rfl⟩

theorem ReachVia.reach {ω ε : Type} {sys : Sys ω ε} {pe : PackageExtractorOptions}
    (pkgs : String → Package) (hres : ∀ w x, (sys.Import w x).1 = Except.ok (pkgs x))
    {k : String} (h : ReachVia sys pe k) :
    Reach (fun x => (pkgs x).Imports) pe.Filter pe.InitialPkg k := by
  induction h with
  | root => exact Reach.root
  | @step p k w pkg _ hi hk hf ih =>
    rw [hres w p] at hi
    cases hi
    exact Reach.step ih hk hf

theorem Reach.congr_imports {imports1 imports2 : String → List String}
    {Filter : String → Bool} {root k : String}
    (hsame : ∀ x y, y ∈ imports1 x → y ∈ imports2 x)
    (h : Reach imports1 Filter root k) : Reach imports2 Filter root k := by
  induction h with
  | root => exact Reach.root
  | step _ hy hf ih => exact Reach.step ih (hsame _ _ hy) hf

/-- On a finite graph whose resolutions all succeed the discovery phase
returns nil and the keys of its map are the identifiers reached from the root
through imports that `Filter` accepts. -/
theorem discover_keys_iff {ω ε : Type} (sys : Sys ω ε) (pe : PackageExtractorOptions)
    (pkgs : String → Package) (U : List String)
    (hres : ∀ w x, (sys.Import w x).1 = Except.ok (pkgs x))
    (hroot : pe.InitialPkg ∈ U)
    (hU : ∀ x ∈ U, ∀ y ∈ (pkgs x).Imports, y ∈ U)
    (fuel : Nat) (hfuel : U.dedup.length < fuel) (w : ω) :
    ∃ s, discover sys pe fuel w = Result.ret none s ∧ ScanInv pe s ∧
      ∀ k, k ∈ mapKeys s.st.importMap ↔
        Reach (fun x => (pkgs x).Imports) pe.Filter pe.InitialPkg k := by
  obtain ⟨s, hs, hinv, hq, _, himp⟩ :=
    discover_terminates sys pe pkgs U (fun w x _ => hres w x) hroot hU fuel hfuel w
  have hkr : mapKeys s.st.importMap = resolvedOf s.st.trace := by
    rw [hinv.keys_eq, ← hinv.pushed_eq, ← hinv.queue_eq, hq, List.append_nil]
  refine ⟨s, hs, hinv, fun k => ⟨?_, ?_⟩⟩
  · intro hk
    have hsound := discover_sound sys pe fuel w
    rw [hs] at hsound
    exact (hsound k hk).1.reach pkgs hres
  · intro hd
    induction hd with
    | root => rw [hinv.keys_eq]; exact List.mem_cons_self _ _
    | step hx hy hf ih =>
      rename_i x y
      rw [hkr] at ih
      have hys := himp x ih y hy
      rw [hinv.seen_eq] at hys
      rw [hinv.keys_eq]
      rcases List.mem_append.1 hys with e | e
      · exact List.mem_cons_of_mem _ (List.mem_filter.2 ⟨List.mem_reverse.1 e, hf⟩)
      · rw [List.mem_singleton.1 e]; exact List.mem_cons_self _ _

theorem ScanInv.lookup_eq {ω : Type} {pe : PackageExtractorOptions} {s : ScanState ω}
    (h : ScanInv pe s) (k : String) :
    mapLookup s.st.importMap k =
      if k ∈ mapKeys s.st.importMap then some (pe.ImportRewriter k) else none := by
  by_cases hk : k ∈ mapKeys s.st.importMap
  · rw [if_pos hk]
    rw [h.keys_eq] at hk
    rw [h.map_eq]
    exact mapLookup_rewriter _ _ _ hk
  · rw [if_neg hk]
    exact (mapLookup_eq_none_iff _ _).2 hk

/-! ### The tree of the reference storage -/

theorem mapLookup_mapAssign (m : ImportMap) (k v x : String) :
    mapLookup (mapAssign m k v) x = if x = k then some v else mapLookup m x := by
  induction m with
  | nil =>
    by_cases h : k = x
    · simp [mapAssign, mapLookup, h]
    · have h2 : ¬ x = k := fun e => h e.symm
      simp [mapAssign, mapLookup, h, h2]
  | cons p m ih =>
    obtain ⟨a, b⟩ := p
    by_cases hak : a = k
    · subst hak
      by_cases hax : a = x
      · simp [mapAssign, mapLookup, hax]
      · have h2 : ¬ x = a := fun e => hax e.symm
        simp [mapAssign, mapLookup, hax, h2]
    · simp only [mapAssign, hak, if_false, mapLookup]
      by_cases hax : a = x
      · have h2 : ¬ x = k := fun e => hak (hax.trans e)
        simp [hax, h2]
      · simp only [hax, if_false, ih]

theorem extractFile_none_inv {ω ε : Type} (sys : Sys ω ε) (src dst : String)
    (st st1 : State ω) (h : extractFile sys src dst st = (none, st1)) :
    ∃ f w0 w1 w2 w3, sys.ParseFile st.world src = (Except.ok f, w0) ∧
      (updateImportSpecs sys st.importMap f.Imports).1 = none ∧
      sys.Create w0 dst = (none, w1) ∧
      sys.Fprint w1 dst { f with Imports := (updateImportSpecs sys st.importMap f.Imports).2 } =
        (none, w2) ∧
      sys.Flush w2 dst = (none, w3) ∧
      st1 = { st with world := sys.Close w3 dst } := by
  unfold extractFile at h
  rcases hp : sys.ParseFile st.world src with ⟨r, w0⟩
  rw [hp] at h
  cases r with
  | error err => cases h
  | ok f =>
    simp only [updateImports] at h
    cases hu : (updateImportSpecs sys st.importMap f.Imports).1 with
    | some err => rw [hu] at h; cases h
    | none =>
      rw [hu] at h
      simp only at h
      rcases hc : sys.Create w0 dst with ⟨c, w1⟩
      rw [hc] at h
      cases c with
      | some err => cases h
      | none =>
        simp only at h
        rcases hf : sys.Fprint w1 dst
          { f with Imports := (updateImportSpecs sys st.importMap f.Imports).2 } with ⟨c2, w2⟩
        rw [hf] at h
        cases c2 with
        | some err => cases h
        | none =>
          simp only at h
          rcases hfl : sys.Flush w2 dst with ⟨c3, w3⟩
          rw [hfl] at h
          cases c3 with
          | some err => cases h
          | none =>
            simp only [Prod.mk.injEq, true_and] at h
            exact ⟨f, w0, w1, w2, w3, rfl, hu, hc, hf, hfl, h.symm⟩

theorem extractFile_tree (graph : String → Except String Package)
    (files : String → Except String File) (render : File → Except String String)
    (src dst : String) (st st1 : State Tree)
    (h : extractFile (treeSys graph files render) src dst st = (none, st1)) :
    st1.importMap = st.importMap ∧
      ∃ b, fileBytes graph files render st.importMap src = some b ∧
        ∀ path, mapLookup st1.world path =
          if path = dst then some b else mapLookup st.world path := by
  obtain ⟨f, w0, w1, w2, w3, hp, hu, hc, hf, hfl, hst⟩ :=
    extractFile_none_inv (treeSys graph files render) src dst st st1 h
  have hp1 : files src = Except.ok f := congrArg Prod.fst hp
  have hp2 : w0 = st.world := (congrArg Prod.snd hp).symm
  have hc2 : w1 = mapAssign w0 dst "" := (congrArg Prod.snd hc).symm
  have hfl2 : w3 = w2 := (congrArg Prod.snd hfl).symm
  have hcl : (treeSys graph files render).Close w3 dst = w3 := rfl
  have hf2 : (match render
      { f with Imports :=
        (updateImportSpecs (treeSys graph files render) st.importMap f.Imports).2 } with
      | Except.ok bytes => ((none : Option String), mapAssign w1 dst bytes)
      | Except.error err => (some err, w1)) = (none, w2) := hf
  subst hst
  refine ⟨rfl, ?_⟩
  unfold fileBytes
  rw [hp1]
  simp only
  rcases hus : updateImportSpecs (treeSys graph files render) st.importMap f.Imports
    with ⟨e, specs⟩
  rw [hus] at hu hf2
  simp only at hu hf2 ⊢
  subst hu
  simp only
  cases hr : render { f with Imports := specs } with
  | error err => rw [hr] at hf2; cases hf2
  | ok bytes =>
    rw [hr] at hf2
    simp only [Prod.mk.injEq, true_and] at hf2
    refine ⟨bytes, rfl, fun path => ?_⟩
    show mapLookup ((treeSys graph files render).Close w3 dst) path = _
    rw [hcl, hfl2, ← hf2, hc2, hp2, mapLookup_mapAssign, mapLookup_mapAssign]
    by_cases hpd : path = dst
    · simp only [hpd, if_true]
    · simp only [hpd, if_false]

theorem extractFiles_tree (graph : String → Except String Package)
    (files : String → Except String File) (render : File → Except String String)
    (pe : PackageExtractorOptions) (srcDir newImportPath : String) (fs : List String)
    (st st1 : State Tree)
    (h : extractFiles (treeSys graph files render) pe srcDir newImportPath fs st = (none, st1)) :
    st1.importMap = st.importMap ∧
      ∀ path,
        (∃ f ∈ fs, joinSlash [pe.OutputRoot, newImportPath, f] = path ∧
          mapLookup st1.world path =
            fileBytes graph files render st.importMap (joinSlash [srcDir, f])) ∨
        ((∀ f ∈ fs, joinSlash [pe.OutputRoot, newImportPath, f] ≠ path) ∧
          mapLookup st1.world path = mapLookup st.world path) := by
  induction fs generalizing st with
  | nil =>
    simp only [extractFiles, Prod.mk.injEq, true_and] at h
    subst h
    exact ⟨rfl, fun path => Or.inr ⟨fun f hf => absurd hf (List.not_mem_nil f), rfl⟩⟩
  | cons f rest ih =>
    unfold extractFiles at h
    rcases he : extractFile (treeSys graph files render)
      ((treeSys graph files render).Join [srcDir, f])
      ((treeSys graph files render).Join [pe.OutputRoot, newImportPath, f]) st with ⟨e, st2⟩
    rw [he] at h
    cases e with
    | some err => cases h
    | none =>
      simp only at h
      obtain ⟨hm2, b, hb, hl2⟩ := extractFile_tree graph files render _ _ st st2 he
      obtain ⟨hm1, hl1⟩ := ih st2 h
      refine ⟨hm1.trans hm2, fun path => ?_⟩
      rcases hl1 path with ⟨f1, hf1, hd1, hc1⟩ | ⟨hn1, hc1⟩
      · exact Or.inl ⟨f1, List.mem_cons_of_mem _ hf1, hd1, by rw [hc1, hm2]⟩
      · by_cases hpd : path = joinSlash [pe.OutputRoot, newImportPath, f]
        · refine Or.inl ⟨f, List.mem_cons_self _ _, hpd.symm, ?_⟩
          rw [hc1, hl2 path]
          have : path = (treeSys graph files render).Join [pe.OutputRoot, newImportPath, f] := hpd
          rw [if_pos this]
          exact hb.symm
        · refine Or.inr ⟨?_, ?_⟩
          · intro f1 hf1
            rcases List.mem_cons.1 hf1 with e1 | e1
            · rw [e1]; exact fun e2 => hpd e2.symm
            · exact hn1 f1 e1
          · rw [hc1, hl2 path]
            have : ¬ path = (treeSys graph files render).Join [pe.OutputRoot, newImportPath, f] :=
              hpd
            rw [if_neg this]

theorem extractPackage_tree (graph : String → Except String Package)
    (files : String → Except String File) (render : File → Except String String)
    (pe : PackageExtractorOptions) (k : String) (st st1 : State Tree)
    (h : extractPackage (treeSys graph files render) pe k st = (none, st1)) :
    st1.importMap = st.importMap ∧
      ∀ path,
        WrittenBy graph files render pe st.importMap [k] path (mapLookup st1.world path) ∨
        ((∀ c, ¬ WrittenBy graph files render pe st.importMap [k] path c) ∧
          mapLookup st1.world path = mapLookup st.world path) := by
  unfold extractPackage at h
  simp only at h
  have hi : (treeSys graph files render).Import st.world k = (graph k, st.world) := rfl
  rw [hi] at h
  cases hg : graph k with
  | error err => rw [hg] at h; cases h
  | ok pkg =>
    rw [hg] at h
    simp only at h
    obtain ⟨hm, hl⟩ := extractFiles_tree graph files render pe _ _ pkg.GoFiles _ st1 h
    refine ⟨hm, fun path => ?_⟩
    rcases hl path with ⟨f, hf, hd, hc⟩ | ⟨hn, hc⟩
    · exact Or.inl ⟨k, List.mem_singleton_self _, pkg, hg, f, hf, hd, hc⟩
    · refine Or.inr ⟨?_, hc⟩
      rintro c ⟨k1, hk1, pkg1, hg1, f, hf, hd, _⟩
      rw [List.mem_singleton.1 hk1, hg] at hg1
      cases hg1
      rw [List.mem_singleton.1 hk1] at hd
      exact hn f hf hd

theorem WrittenBy.mono {graph : String → Except String Package}
    {files : String → Except String File} {render : File → Except String String}
    {pe : PackageExtractorOptions} {m : ImportMap} {ks1 ks2 : List String} {path : String}
    {c : Option String} (hsub : ∀ k ∈ ks1, k ∈ ks2)
    (h : WrittenBy graph files render pe m ks1 path c) :
    WrittenBy graph files render pe m ks2 path c := by
  obtain ⟨k, hk, rest⟩ := h
  exact ⟨k, hsub k hk, rest⟩

theorem extractAll_tree (graph : String → Except String Package)
    (files : String → Except String File) (render : File → Except String String)
    (pe : PackageExtractorOptions) (ks : List String) (st st1 : State Tree)
    (h : extractAll (treeSys graph files render) pe ks st = (none, st1)) :
    st1.importMap = st.importMap ∧
      ∀ path,
        WrittenBy graph files render pe st.importMap ks path (mapLookup st1.world path) ∨
        ((∀ c, ¬ WrittenBy graph files render pe st.importMap ks path c) ∧
          mapLookup st1.world path = mapLookup st.world path) := by
  induction ks generalizing st with
  | nil =>
    simp only [extractAll, Prod.mk.injEq, true_and] at h
    subst h
    refine ⟨rfl, fun path => Or.inr ⟨?_, rfl⟩⟩
    rintro c ⟨k, hk, _⟩
    cases hk
  | cons k rest ih =>
    unfold extractAll at h
    rcases he : extractPackage (treeSys graph files render) pe k st with ⟨e, st2⟩
    rw [he] at h
    cases e with
    | some err => cases h
    | none =>
      simp only at h
      obtain ⟨hm2, hl2⟩ := extractPackage_tree graph files render pe k st st2 he
      obtain ⟨hm1, hl1⟩ := ih st2 h
      refine ⟨hm1.trans hm2, fun path => ?_⟩
      rcases hl1 path with hw1 | ⟨hn1, hc1⟩
      · rw [hm2] at hw1
        exact Or.inl (hw1.mono fun x hx => List.mem_cons_of_mem _ hx)
      · rcases hl2 path with hw2 | ⟨hn2, hc2⟩
        · rw [← hc1] at hw2
          exact Or.inl (hw2.mono fun x hx => by
            rw [List.mem_singleton.1 hx]; exact List.mem_cons_self _ _)
        · refine Or.inr ⟨?_, hc1.trans hc2⟩
          rintro c ⟨k1, hk1, rest1⟩
          rcases List.mem_cons.1 hk1 with e1 | e1
          · exact hn2 c ⟨k1, by rw [e1]; exact List.mem_singleton_self _, rest1⟩
          · exact hn1 c (by rw [hm2]; exact ⟨k1, e1, rest1⟩)

theorem graphAB_ok (k : String) (pkg : Package) (h : graphAB k = Except.ok pkg) :
    (k = "A" ∧ pkg.GoFiles = ["a.go"] ∧ pkg.SrcRoot = "src") ∨
      (k = "B" ∧ pkg.GoFiles = ["b.go"] ∧ pkg.SrcRoot = "src") := by
  unfold graphAB at h
  by_cases hA : k = "A"
  · simp only [hA, if_true, Except.ok.injEq] at h
    subst h
    exact Or.inl ⟨hA, rfl, rfl⟩
  · by_cases hB : k = "B"
    · rw [if_neg hA, if_pos hB] at h
      cases h
      exact Or.inr ⟨hB, rfl, rfl⟩
    · rw [if_neg hA, if_neg hB] at h
      cases h

theorem graphAB_no_clash (k1 k2 : String) (pkg1 pkg2 : Package) (f1 f2 : String)
    (h1 : graphAB k1 = Except.ok pkg1) (h2 : graphAB k2 = Except.ok pkg2)
    (hf1 : f1 ∈ pkg1.GoFiles) (hf2 : f2 ∈ pkg2.GoFiles)
    (hd : joinSlash [peAll.OutputRoot, peAll.ImportRewriter k1, f1] =
      joinSlash [peAll.OutputRoot, peAll.ImportRewriter k2, f2]) :
    joinSlash [joinSlash [pkg1.SrcRoot, k1], f1] =
      joinSlash [joinSlash [pkg2.SrcRoot, k2], f2] := by
  rcases graphAB_ok k1 pkg1 h1 with ⟨e1, g1, r1⟩ | ⟨e1, g1, r1⟩ <;>
    rcases graphAB_ok k2 pkg2 h2 with ⟨e2, g2, r2⟩ | ⟨e2, g2, r2⟩ <;>
    rw [g1] at hf1 <;> rw [g2] at hf2 <;>
    rw [List.mem_singleton] at hf1 hf2 <;>
    subst e1 e2 hf1 hf2 <;> rw [r1, r2]
  · exact absurd hd (by decide)
  · exact absurd hd (by decide)

/-- When the rewriter sends two packages to the same location and both have a
file of the same name, both iteration orders succeed and the bytes at the
shared path are those of the package visited last. -/
theorem clashing_destinations_depend_on_order :
    (Run sysTreeClash peFlat (fun _ => ["A", "B"]) 5 []).err = none ∧
      (Run sysTreeClash peFlat (fun _ => ["B", "A"]) 5 []).err = none ∧
      mapLookup (Run sysTreeClash peFlat (fun _ => ["A", "B"]) 5 []).state.world
        "dst/out/doc.go" = some "package b" ∧
      mapLookup (Run sysTreeClash peFlat (fun _ => ["B", "A"]) 5 []).state.world
        "dst/out/doc.go" = some "package a" := by
  decide

/-! ### Every failure of a step is the result of the enclosing call -/

theorem extractFile_parse_error {ω ε : Type} (sys : Sys ω ε) (src dst : String)
    (st : State ω) (err : ε) (w0 : ω)
    (hp : sys.ParseFile st.world src = (Except.error err, w0)) :
    extractFile sys src dst st = (some err, { st with world := w0 }) := by
  unfold extractFile
  rw [hp]

theorem extractFile_rewrite_error {ω ε : Type} (sys : Sys ω ε) (src dst : String)
    (st : State ω) (f : File) (err : ε) (w0 : ω)
    (hp : sys.ParseFile st.world src = (Except.ok f, w0))
    (hu : (updateImportSpecs sys st.importMap f.Imports).1 = some err) :
    extractFile sys src dst st = (some err, { st with world := w0 }) := by
  unfold extractFile
  rw [hp]
  simp only [updateImports, hu]

theorem extractFile_create_error {ω ε : Type} (sys : Sys ω ε) (src dst : String)
    (st : State ω) (f : File) (err : ε) (w0 w1 : ω)
    (hp : sys.ParseFile st.world src = (Except.ok f, w0))
    (hu : (updateImportSpecs sys st.importMap f.Imports).1 = none)
    (hc : sys.Create w0 dst = (some err, w1)) :
    extractFile sys src dst st = (some err, { st with world := w1 }) := by
  unfold extractFile
  rw [hp]
  simp only [updateImports, hu, hc]

theorem extractFile_print_error {ω ε : Type} (sys : Sys ω ε) (src dst : String)
    (st : State ω) (f : File) (err : ε) (w0 w1 w2 : ω)
    (hp : sys.ParseFile st.world src = (Except.ok f, w0))
    (hu : (updateImportSpecs sys st.importMap f.Imports).1 = none)
    (hc : sys.Create w0 dst = (none, w1))
    (hf : sys.Fprint w1 dst
      { f with Imports := (updateImportSpecs sys st.importMap f.Imports).2 } = (some err, w2)) :
    extractFile sys src dst st = (some err, { st with world := sys.Close w2 dst }) := by
  unfold extractFile
  rw [hp]
  simp only [updateImports, hu, hc, hf]

theorem extractFile_flush_error {ω ε : Type} (sys : Sys ω ε) (src dst : String)
    (st : State ω) (f : File) (err : ε) (w0 w1 w2 w3 : ω)
    (hp : sys.ParseFile st.world src = (Except.ok f, w0))
    (hu : (updateImportSpecs sys st.importMap f.Imports).1 = none)
    (hc : sys.Create w0 dst = (none, w1))
    (hf : sys.Fprint w1 dst
      { f with Imports := (updateImportSpecs sys st.importMap f.Imports).2 } = (none, w2))
    (hfl : sys.Flush w2 dst = (some err, w3)) :
    extractFile sys src dst st = (some err, { st with world := sys.Close w3 dst }) := by
  unfold extractFile
  rw [hp]
  simp only [updateImports, hu, hc, hf, hfl]

theorem extractFiles_stops {ω ε : Type} (sys : Sys ω ε) (pe : PackageExtractorOptions)
    (srcDir newImportPath : String) (pre post : List String) (f : String)
    (st st1 st2 : State ω) (err : ε)
    (hpre : extractFiles sys pe srcDir newImportPath pre st = (none, st1))
    (hf : extractFile sys (sys.Join [srcDir, f]) (sys.Join [pe.OutputRoot, newImportPath, f]) st1 =
      (some err, st2)) :
    extractFiles sys pe srcDir newImportPath (pre ++ f :: post) st = (some err, st2) := by
  rw [extractFiles_append, hpre]
  simp only [extractFiles, hf]

theorem extractFiles_none_before {ω ε : Type} (sys : Sys ω ε) (pe : PackageExtractorOptions)
    (srcDir newImportPath : String) (pre post : List String) (f : String) (st : State ω)
    (h : (extractFiles sys pe srcDir newImportPath (pre ++ f :: post) st).1 = none) :
    (extractFiles sys pe srcDir newImportPath pre st).1 = none ∧
      (extractFile sys (sys.Join [srcDir, f]) (sys.Join [pe.OutputRoot, newImportPath, f])
        (extractFiles sys pe srcDir newImportPath pre st).2).1 = none := by
  rw [extractFiles_append] at h
  rcases hp : extractFiles sys pe srcDir newImportPath pre st with ⟨e, st1⟩
  rw [hp] at h
  cases e with
  | some err => cases h
  | none =>
    simp only [extractFiles] at h
    rcases hk : extractFile sys (sys.Join [srcDir, f])
      (sys.Join [pe.OutputRoot, newImportPath, f]) st1 with ⟨e2, st2⟩
    rw [hk] at h
    cases e2 with
    | some err => cases h
    | none => exact ⟨rfl, rfl⟩

theorem extractPackage_of_error {ω ε : Type} (sys : Sys ω ε) (pe : PackageExtractorOptions)
    (k : String) (st : State ω) (err : ε) (w : ω)
    (hi : sys.Import st.world k = (Except.error err, w)) :
    extractPackage sys pe k st =
      (some err,
        { st with
          world := w
          trace := st.trace ++ [Event.extract k, Event.resolve k] }) := by
  unfold extractPackage
  simp only
  rw [hi]

theorem extractPackage_of_ok {ω ε : Type} (sys : Sys ω ε) (pe : PackageExtractorOptions)
    (k : String) (st : State ω) (pkg : Package) (w : ω)
    (hi : sys.Import st.world k = (Except.ok pkg, w)) :
    extractPackage sys pe k st =
      extractFiles sys pe (sys.Join [pkg.SrcRoot, k]) (pe.ImportRewriter k) pkg.GoFiles
        { st with
          world := (sys.MkdirAll w (sys.Join [pe.OutputRoot, pe.ImportRewriter k])).2
          trace := st.trace ++ [Event.extract k, Event.resolve k] } := by
  unfold extractPackage
  simp only
  rw [hi]

theorem extractPackage_none_inv {ω ε : Type} (sys : Sys ω ε) (pe : PackageExtractorOptions)
    (k : String) (st : State ω) (h : (extractPackage sys pe k st).1 = none) :
    ∃ pkg w, sys.Import st.world k = (Except.ok pkg, w) ∧
      (extractFiles sys pe (sys.Join [pkg.SrcRoot, k]) (pe.ImportRewriter k) pkg.GoFiles
        { st with
          world := (sys.MkdirAll w (sys.Join [pe.OutputRoot, pe.ImportRewriter k])).2
          trace := st.trace ++ [Event.extract k, Event.resolve k] }).1 = none := by
  rcases hi : sys.Import st.world k with ⟨r, w⟩
  cases r with
  | error err =>
    rw [extractPackage_of_error sys pe k st err w hi] at h
    cases h
  | ok pkg =>
    rw [extractPackage_of_ok sys pe k st pkg w hi] at h
    exact ⟨pkg, w, rfl, h⟩

/-! ## The claims -/

/-- C2, the claim as stated fails at the root: with a `Filter` that rejects
everything, the root `A` is rejected by `Filter` and is a key of the map when
`Run` returns. -/
theorem excluded_root_is_key :
    peNone.Filter "A" = false ∧
      "A" ∈ mapKeys (Run sysABCD peNone mapKeys 5 []).state.importMap := by
  decide

/-- C2 (amended): an identifier other than the root that `Filter` rejects is
never a key of `importMap`: not at any loop head of the discovery phase (the
state of `discover` for every amount of fuel), not when `Run` stops, and the
log of `Run` holds no assignment to it. -/
theorem excluded_never_key {ω ε : Type} (sys : Sys ω ε) (pe : PackageExtractorOptions)
    (order : ImportMap → List String) (fuel : Nat) (w : ω) (x : String)
    (hx : x ≠ pe.InitialPkg) (hf : pe.Filter x = false) :
    x ∉ mapKeys (discover sys pe fuel w).state.st.importMap ∧
      x ∉ mapKeys (Run sys pe order fuel w).state.importMap ∧
      ∀ v, Event.insert x v ∉ (Run sys pe order fuel w).state.trace := by
  have hinv := discover_inv sys pe fuel w
  have h1 : x ∉ mapKeys (discover sys pe fuel w).state.st.importMap := by
    intro hk
    rcases hinv.key_cases x hk with e | e
    · exact hx e
    · rw [hf] at e; cases e
  obtain ⟨hm, t, ht, hi, _, _⟩ := Run_frame sys pe order fuel w
  refine ⟨h1, by rw [hm]; exact h1, ?_⟩
  intro v hv
  have : (x, v) ∈ insertsOf (Run sys pe order fuel w).state.trace := (mem_insertsOf _ _ _).2 hv
  rw [ht, insertsOf_append, hi, List.append_nil, hinv.inserts_eq] at this
  exact h1 (List.mem_map.2 ⟨(x, v), this, rfl⟩)

/-- C2 (amended), at a concrete input: in the first scenario `C` is not the
root, is rejected by `Filter` and is not a key of the map. -/
theorem excluded_never_key_witness :
    "C" ≠ peScenario.InitialPkg ∧ peScenario.Filter "C" = false ∧
      "C" ∉ mapKeys (Run sysABCD peScenario mapKeys 5 []).state.importMap :=
  ⟨by decide, by decide,
    (excluded_never_key sysABCD peScenario mapKeys 5 [] "C" (by decide) (by decide)).2.1⟩

/-- C3: whatever `Filter` answers, after the discovery phase of `Run` (for every
amount of fuel, with or without an error) `importMap` maps `InitialPkg` to
`ImportRewriter InitialPkg`, and `Filter` has not been called on `InitialPkg`,
neither by then nor when `Run` stops. -/
theorem root_always_included {ω ε : Type} (sys : Sys ω ε) (pe : PackageExtractorOptions)
    (order : ImportMap → List String) (fuel : Nat) (w : ω) :
    mapLookup (discover sys pe fuel w).state.st.importMap pe.InitialPkg =
        some (pe.ImportRewriter pe.InitialPkg) ∧
      Event.filter pe.InitialPkg ∉ (discover sys pe fuel w).state.st.trace ∧
      mapLookup (Run sys pe order fuel w).state.importMap pe.InitialPkg =
        some (pe.ImportRewriter pe.InitialPkg) ∧
      Event.filter pe.InitialPkg ∉ (Run sys pe order fuel w).state.trace := by
  have hinv := discover_inv sys pe fuel w
  obtain ⟨hm, t, ht, _, hfl, _⟩ := Run_frame sys pe order fuel w
  have h2 : Event.filter pe.InitialPkg ∉ (discover sys pe fuel w).state.st.trace :=
    fun hmem => hinv.root_not_filtered ((mem_filteredOf _ _).2 hmem)
  refine ⟨hinv.lookup_root, h2, by rw [hm]; exact hinv.lookup_root, ?_⟩
  intro hmem
  have := (mem_filteredOf _ _).2 hmem
  rw [ht, filteredOf_append, hfl, List.append_nil] at this
  exact hinv.root_not_filtered this

/-- C1: on a finite graph `U` whose resolutions all succeed (`pkgs` gives the
package of every identifier), the discovery phase of `Run` returns without
error once the fuel exceeds the number of identifiers, and every identifier
`d` at the end of a chain from the root through declared imports, all of
whose members after the root satisfy `Filter`, is a key of `importMap`, once,
with the value `ImportRewriter d`. -/
theorem closure_complete {ω ε : Type} (sys : Sys ω ε) (pe : PackageExtractorOptions)
    (pkgs : String → Package) (U : List String)
    (hres : ∀ w, ∀ x ∈ U, (sys.Import w x).1 = Except.ok (pkgs x))
    (hroot : pe.InitialPkg ∈ U)
    (hU : ∀ x ∈ U, ∀ y ∈ (pkgs x).Imports, y ∈ U)
    (fuel : Nat) (hfuel : U.dedup.length < fuel) (w : ω) (d : String)
    (hd : Reach (fun x => (pkgs x).Imports) pe.Filter pe.InitialPkg d) :
    ∃ s, discover sys pe fuel w = Result.ret none s ∧
      d ∈ mapKeys s.st.importMap ∧
      (mapKeys s.st.importMap).count d = 1 ∧
      mapLookup s.st.importMap d = some (pe.ImportRewriter d) := by
  obtain ⟨s, hs, hinv, hq, _, himp⟩ :=
    discover_terminates sys pe pkgs U hres hroot hU fuel hfuel w
  have hkr : mapKeys s.st.importMap = resolvedOf s.st.trace := by
    rw [hinv.keys_eq, ← hinv.pushed_eq, ← hinv.queue_eq, hq, List.append_nil]
  have hmem : d ∈ mapKeys s.st.importMap := by
    induction hd with
    | root => rw [hinv.keys_eq]; exact List.mem_cons_self _ _
    | step hx hy hf ih =>
      rename_i x y
      rw [hkr] at ih
      have hys := himp x ih y hy
      rw [hinv.seen_eq] at hys
      rw [hinv.keys_eq]
      rcases List.mem_append.1 hys with e | e
      · exact List.mem_cons_of_mem _ (List.mem_filter.2 ⟨List.mem_reverse.1 e, hf⟩)
      · rw [List.mem_singleton.1 e]; exact List.mem_cons_self _ _
  refine ⟨s, hs, hmem, List.count_eq_one_of_mem hinv.keys_nodup hmem, ?_⟩
  rw [hinv.map_eq]
  apply mapLookup_rewriter
  rw [← hinv.keys_eq]
  exact hmem

/-- C1 at the scenario of the specification: `A` imports `B` and `C`,
`B` imports `D`, `Filter` rejects only `C`; `D` is reached through `B`, and
the map is `A: out/A, B: out/B, D: out/D`. -/
theorem closure_complete_witness :
    (∀ w : List String, ∀ x ∈ ["A", "B", "C", "D"],
        (sysABCD.Import w x).1 = Except.ok (graphABCD x)) ∧
      peScenario.InitialPkg ∈ ["A", "B", "C", "D"] ∧
      (∀ x ∈ ["A", "B", "C", "D"], ∀ y ∈ (graphABCD x).Imports, y ∈ ["A", "B", "C", "D"]) ∧
      Reach (fun x => (graphABCD x).Imports) peScenario.Filter peScenario.InitialPkg "D" ∧
      (∃ s, discover sysABCD peScenario 5 [] = Result.ret none s ∧
        "D" ∈ mapKeys s.st.importMap ∧
        (mapKeys s.st.importMap).count "D" = 1 ∧
        mapLookup s.st.importMap "D" = some (peScenario.ImportRewriter "D")) ∧
      (discover sysABCD peScenario 5 []).state.st.importMap =
        [("A", "out/A"), ("B", "out/B"), ("D", "out/D")] :=
  have hreach : Reach (fun x => (graphABCD x).Imports) peScenario.Filter
      peScenario.InitialPkg "D" :=
    Reach.step (Reach.step Reach.root (x := "A") (y := "B") (by decide) (by decide))
      (y := "D") (by decide) (by decide)
  ⟨fun _ _ _ => rfl, by decide, by decide, hreach,
    closure_complete sysABCD peScenario graphABCD ["A", "B", "C", "D"]
      (fun _ _ _ => rfl) (by decide) (by decide) 5 (by decide) [] "D" hreach,
    by decide⟩

/-- C8: on a finite graph `U` (cycles and self-imports allowed) whose
resolutions all succeed, `scanForPackages` inside `Run` terminates: with more
fuel than `U` has distinct identifiers it returns without error and with an
empty frontier. The loop body ran once for every entry of the list of resolved
identifiers; that list has no repetition, lies in `U`, and so is at most as
long as the number of distinct identifiers of `U`. -/
theorem scan_terminates {ω ε : Type} (sys : Sys ω ε) (pe : PackageExtractorOptions)
    (pkgs : String → Package) (U : List String)
    (hres : ∀ w, ∀ x ∈ U, (sys.Import w x).1 = Except.ok (pkgs x))
    (hroot : pe.InitialPkg ∈ U)
    (hU : ∀ x ∈ U, ∀ y ∈ (pkgs x).Imports, y ∈ U)
    (fuel : Nat) (hfuel : U.dedup.length < fuel) (w : ω) :
    ∃ s, discover sys pe fuel w = Result.ret none s ∧ s.toScan = [] ∧
      (resolvedOf s.st.trace).Nodup ∧
      (∀ x ∈ resolvedOf s.st.trace, x ∈ U) ∧
      (resolvedOf s.st.trace).length ≤ U.dedup.length := by
  obtain ⟨s, hs, hinv, hq, hseen, _⟩ :=
    discover_terminates sys pe pkgs U hres hroot hU fuel hfuel w
  have hsub : ∀ x ∈ resolvedOf s.st.trace, x ∈ U := by
    intro x hx
    apply hseen
    apply hinv.keys_seen
    rw [hinv.keys_eq, ← hinv.pushed_eq, ← hinv.queue_eq]
    exact List.mem_append_left _ hx
  refine ⟨s, hs, hq, hinv.resolved_nodup, hsub, ?_⟩
  apply (List.Nodup.subperm hinv.resolved_nodup _).length_le
  intro x hx
  exact List.mem_dedup.2 (hsub x hx)

/-- C8 at the cyclic graph `A -> B -> A` with a `Filter` that accepts
everything: the scan returns, after two passes of the loop, with the map
`A: out/A, B: out/B`. -/
theorem scan_terminates_witness :
    (∀ w : List String, ∀ x ∈ ["A", "B"], (sysCycle.Import w x).1 = Except.ok (graphCycle x)) ∧
      peAll.InitialPkg ∈ ["A", "B"] ∧
      (∀ x ∈ ["A", "B"], ∀ y ∈ (graphCycle x).Imports, y ∈ ["A", "B"]) ∧
      (∃ s, discover sysCycle peAll 3 [] = Result.ret none s ∧ s.toScan = [] ∧
        (resolvedOf s.st.trace).Nodup ∧
        (∀ x ∈ resolvedOf s.st.trace, x ∈ ["A", "B"]) ∧
        (resolvedOf s.st.trace).length ≤ ["A", "B"].dedup.length) ∧
      (discover sysCycle peAll 3 []).state.st.importMap = [("A", "out/A"), ("B", "out/B")] ∧
      (resolvedOf (discover sysCycle peAll 3 []).state.st.trace).length = 2 :=
  ⟨fun _ _ _ => rfl, by decide, by decide,
    scan_terminates sysCycle peAll graphCycle ["A", "B"]
      (fun _ _ _ => rfl) (by decide) (by decide) 3 (by decide) [],
    by decide, by decide⟩

/-- C9: during the scan the resolver is called at most once for each
identifier, and no identifier is pushed onto the frontier twice: for every
system, options and amount of fuel, the list of resolved identifiers and the
list of pushed identifiers of the discovery phase have no repetition. In the
cyclic graph `A -> B -> A` the resolved identifiers are `A`, `B`. -/
theorem resolved_once {ω ε : Type} (sys : Sys ω ε) (pe : PackageExtractorOptions)
    (fuel : Nat) (w : ω) :
    (resolvedOf (discover sys pe fuel w).state.st.trace).Nodup ∧
      (pushedOf (discover sys pe fuel w).state.st.trace).Nodup ∧
      resolvedOf (discover sysCycle peAll 3 []).state.st.trace = ["A", "B"] ∧
      pushedOf (discover sysCycle peAll 3 []).state.st.trace = ["A", "B"] := by
  have hinv := discover_inv sys pe fuel w
  exact ⟨hinv.resolved_nodup, hinv.pushed_nodup, by decide, by decide⟩

/-- C10: starting from the empty map of `NewPackageExtractor`, (1) the
assignments to `importMap` logged during a whole `Run` are exactly the entries
of the final map, in order, and their keys are pairwise distinct, so that each
identifier is assigned once and never again; from one loop head of the
discovery phase to the next every entry of the map stays with its value;
(2) the map when `Run` stops is the map at the end of discovery. -/
theorem map_lifecycle {ω ε : Type} (sys : Sys ω ε) (pe : PackageExtractorOptions)
    (order : ImportMap → List String) (fuel : Nat) (w : ω) :
    (NewPackageExtractor w).importMap = [] ∧
      insertsOf (Run sys pe order fuel w).state.trace = (Run sys pe order fuel w).state.importMap ∧
      ((insertsOf (Run sys pe order fuel w).state.trace).map Prod.fst).Nodup ∧
      (∀ k v, mapLookup (discover sys pe fuel w).state.st.importMap k = some v →
        mapLookup (discover sys pe (fuel + 1) w).state.st.importMap k = some v) ∧
      (Run sys pe order fuel w).state.importMap = (discover sys pe fuel w).state.st.importMap := by
  have hinv := discover_inv sys pe fuel w
  obtain ⟨hm, t, ht, hi, _, _⟩ := Run_frame sys pe order fuel w
  have h1 : insertsOf (Run sys pe order fuel w).state.trace =
      (Run sys pe order fuel w).state.importMap := by
    rw [ht, insertsOf_append, hi, List.append_nil, hinv.inserts_eq, hm]
  refine ⟨rfl, h1, ?_, ?_, hm⟩
  · rw [h1, hm]
    exact hinv.keys_nodup
  · intro k v hkv
    obtain ⟨t2, h2⟩ := scanLoop_succ_map sys pe fuel _ (scanInit_inv pe w)
    have h3 : (discover sys pe (fuel + 1) w).state.st.importMap =
        (discover sys pe fuel w).state.st.importMap ++ t2 := h2
    rw [h3]
    exact mapLookup_append_left _ _ _ _ hkv

/-- C5: when `updateImports` returns without error, an import spec whose
literal decodes to a key `p` of `importMap` with value `v` has the literal
`Quote v` afterwards (the rest of the spec is as before); and when `Unquote`
undoes `Quote`, as `strconv` does, that literal decodes to `v`. -/
theorem mapped_reference_rewritten {ω ε : Type} (sys : Sys ω ε) (f : File) (st : State ω)
    (i : Nat) (sp : ImportSpec) (p v : String)
    (hok : (updateImports sys f st).1 = none)
    (hround : ∀ s, sys.Unquote (sys.Quote s) = Except.ok s)
    (hi : f.Imports[i]? = some sp)
    (hp : sys.Unquote sp.PathValue = Except.ok p)
    (hv : mapLookup st.importMap p = some v) :
    ∃ sp1, (updateImports sys f st).2.1.Imports[i]? = some sp1 ∧
      sp1 = { sp with PathValue := sys.Quote v } ∧
      sp1.PathValue = sys.Quote v ∧
      sys.Unquote sp1.PathValue = Except.ok v :=
  ⟨_, updateImportSpecs_mapped sys st.importMap f.Imports i sp p v hok hi hp hv, rfl, rfl,
    hround v⟩

/-- C5 at the scenario of the specification: with the map `B: out/B`, the
literal `"B"` of the first import becomes `"out/B"`, which decodes to
`out/B`. -/
theorem mapped_reference_rewritten_witness :
    (updateImports sysABCD fileBC stateB).1 = none ∧
      (∀ s, sysABCD.Unquote (sysABCD.Quote s) = Except.ok s) ∧
      fileBC.Imports[0]? = some (specOf (quotePlain "B")) ∧
      sysABCD.Unquote (specOf (quotePlain "B")).PathValue = Except.ok "B" ∧
      mapLookup stateB.importMap "B" = some "out/B" ∧
      (∃ sp1, (updateImports sysABCD fileBC stateB).2.1.Imports[0]? = some sp1 ∧
        sp1 = { specOf (quotePlain "B") with PathValue := sysABCD.Quote "out/B" } ∧
        sp1.PathValue = sysABCD.Quote "out/B" ∧
        sysABCD.Unquote sp1.PathValue = Except.ok "out/B") ∧
      sysABCD.Quote "out/B" = String.mk [dquote, 'o', 'u', 't', '/', 'B', dquote] :=
  ⟨rfl, unquotePlain_quotePlain, rfl, rfl, rfl,
    mapped_reference_rewritten sysABCD fileBC stateB 0 (specOf (quotePlain "B")) "B" "out/B"
      rfl unquotePlain_quotePlain rfl rfl rfl,
    rfl⟩

/-- C6: an import spec whose literal decodes to an identifier that is not a key
of `importMap` is, after `updateImports` (whether it returns an error or not),
the spec it was before: the same literal text, character for character, and
the same other fields. -/
theorem unmapped_reference_unchanged {ω ε : Type} (sys : Sys ω ε) (f : File) (st : State ω)
    (i : Nat) (sp : ImportSpec) (p : String)
    (hi : f.Imports[i]? = some sp)
    (hp : sys.Unquote sp.PathValue = Except.ok p)
    (hv : mapLookup st.importMap p = none) :
    (updateImports sys f st).2.1.Imports[i]? = some sp :=
  updateImportSpecs_unmapped sys st.importMap f.Imports i sp p hi hp hv

/-- C6 at the scenario of the specification: with the map `B: out/B`,
the reference to `C` keeps its literal. -/
theorem unmapped_reference_unchanged_witness :
    fileBC.Imports[1]? = some (specOf (quotePlain "C")) ∧
      sysABCD.Unquote (specOf (quotePlain "C")).PathValue = Except.ok "C" ∧
      mapLookup stateB.importMap "C" = none ∧
      (updateImports sysABCD fileBC stateB).2.1.Imports[1]? = some (specOf (quotePlain "C")) :=
  ⟨rfl, rfl, rfl,
    unmapped_reference_unchanged sysABCD fileBC stateB 1 (specOf (quotePlain "C")) "C"
      rfl rfl rfl⟩

/-- C4, what the code does when discovery fails: `A` imports `B` and has the
file `a.go`, the resolver fails on `B`, `Filter` accepts everything. The scan
returns the resolution error of `B`; `Run` goes on to the extraction loop
with the map `A, B` all the same: `extractPackage` is entered for `A` and
for `B`, and the directory and the file of `A` are produced before `Run`
returns the error of `B`. -/
theorem run_extracts_after_failed_scan :
    (discover sysBroken peAll 5 []).returned = true ∧
      (discover sysBroken peAll 5 []).err = some "cannot find package B" ∧
      mapKeys (discover sysBroken peAll 5 []).state.st.importMap = ["A", "B"] ∧
      extractedOf (Run sysBroken peAll mapKeys 5 []).state.trace = ["A", "B"] ∧
      (Run sysBroken peAll mapKeys 5 []).state.world =
        ["mkdir dst/out/A", "create dst/out/A/a.go", "print dst/out/A/a.go",
          "flush dst/out/A/a.go", "close dst/out/A/a.go"] ∧
      (Run sysBroken peAll mapKeys 5 []).err = some "cannot find package B" := by
  decide

/-- C16: during the discovery phase `Filter` is called at most once on each
identifier and never on the root: for every system, options and amount of
fuel the list of the identifiers `Filter` was called on has no repetition and
does not hold `InitialPkg`. An identifier that is already in `seen`, as every
tested identifier is from its test on, is skipped by the loop body: the state,
log included, is as before, so it is not tested, inserted or pushed again;
and an identifier that `Filter` rejects is never pushed. -/
theorem filter_once {ω ε : Type} (sys : Sys ω ε) (pe : PackageExtractorOptions)
    (fuel : Nat) (w : ω) :
    (filteredOf (discover sys pe fuel w).state.st.trace).Nodup ∧
      pe.InitialPkg ∉ filteredOf (discover sys pe fuel w).state.st.trace ∧
      (∀ x, x ∈ filteredOf (discover sys pe fuel w).state.st.trace →
        x ∈ (discover sys pe fuel w).state.seen) ∧
      (∀ (s : ScanState ω) (x : String), x ∈ s.seen → scanImport pe x s = s) ∧
      (∀ x, x ≠ pe.InitialPkg → pe.Filter x = false →
        x ∉ pushedOf (discover sys pe fuel w).state.st.trace) := by
  have hinv := discover_inv sys pe fuel w
  refine ⟨hinv.filtered_nodup, hinv.root_not_filtered, ?_, ?_, ?_⟩
  · intro x hx
    rw [hinv.seen_eq]
    exact List.mem_append_left _ (List.mem_reverse.2 hx)
  · intro s x hx
    unfold scanImport
    simp only [hx, if_true]
  · intro x hx hf hp
    rw [hinv.pushed_eq] at hp
    rcases List.mem_cons.1 hp with e | e
    · exact hx e
    · have := (List.mem_filter.1 e).2
      rw [hf] at this
      cases this

/-- C17: for every pair `(original, relocated)` of the map the discovery phase
built, `relocated` is `ImportRewriter original`; the destination directory
`extractPackage` computes, `OutputRoot` joined with `ImportRewriter original`,
is `OutputRoot` joined with `relocated`; and `extractPackage` does to every
state what the specification's loop body `extractPair` does with the pair. -/
theorem destination_is_relocated {ω ε : Type} (sys : Sys ω ε) (pe : PackageExtractorOptions)
    (fuel : Nat) (w : ω) (original relocated : String)
    (h : mapLookup (discover sys pe fuel w).state.st.importMap original = some relocated) :
    relocated = pe.ImportRewriter original ∧
      sys.Join [pe.OutputRoot, pe.ImportRewriter original] =
        sys.Join [pe.OutputRoot, relocated] ∧
      (∀ st : State ω,
        extractPackage sys pe original st = extractPair sys pe original relocated st) ∧
      (∀ st : State ω,
        extractAll sys pe (mapKeys (discover sys pe fuel w).state.st.importMap) st =
          extractPairs sys pe (discover sys pe fuel w).state.st.importMap st) := by
  have hinv := discover_inv sys pe fuel w
  have hv := hinv.value_eq original relocated h
  subst hv
  exact ⟨rfl, rfl, fun _ => rfl, fun st => extractPairs_eq sys pe _ hinv.mem_value st⟩

/-- C17 at the first scenario: the pair `(B, out/B)` of the discovered map. -/
theorem destination_is_relocated_witness :
    mapLookup (discover sysABCD peScenario 5 []).state.st.importMap "B" = some "out/B" ∧
      "out/B" = peScenario.ImportRewriter "B" ∧
      sysABCD.Join [peScenario.OutputRoot, peScenario.ImportRewriter "B"] =
        sysABCD.Join [peScenario.OutputRoot, "out/B"] ∧
      (∀ st : State (List String),
        extractPackage sysABCD peScenario "B" st = extractPair sysABCD peScenario "B" "out/B" st) ∧
      (∀ st : State (List String),
        extractAll sysABCD peScenario
            (mapKeys (discover sysABCD peScenario 5 []).state.st.importMap) st =
          extractPairs sysABCD peScenario (discover sysABCD peScenario 5 []).state.st.importMap st) :=
  ⟨by decide, destination_is_relocated sysABCD peScenario 5 [] "B" "out/B" (by decide)⟩

/-- C20: `updateImports` changes nothing but path literal values. Whether it
returns an error or not, the file afterwards has the same name and the same
other content, `f.Imports` has the same length, the run state is untouched,
and the spec at every position keeps its alias, position and comment; its
literal is either the one it had, or it decoded to a key of the map and is
now the quoted value of that key. -/
theorem update_changes_literals_only {ω ε : Type} (sys : Sys ω ε) (f : File) (st : State ω) :
    (updateImports sys f st).2.1.Name = f.Name ∧
      (updateImports sys f st).2.1.Rest = f.Rest ∧
      (updateImports sys f st).2.2 = st ∧
      (updateImports sys f st).2.1.Imports.length = f.Imports.length ∧
      ∀ (i : Nat) (sp : ImportSpec), f.Imports[i]? = some sp →
        ∃ sp1, (updateImports sys f st).2.1.Imports[i]? = some sp1 ∧
          sp1.Name = sp.Name ∧ sp1.PathPos = sp.PathPos ∧ sp1.Comment = sp.Comment ∧
          (sp1.PathValue = sp.PathValue ∨
            ∃ p v, sys.Unquote sp.PathValue = Except.ok p ∧
              mapLookup st.importMap p = some v ∧ sp1.PathValue = sys.Quote v) :=
  ⟨rfl, rfl, rfl, updateImportSpecs_length sys st.importMap f.Imports,
    fun i sp hi => updateImportSpecs_frame sys st.importMap f.Imports i sp hi⟩

/-- C11: the extraction phase stops at the first error, whatever step fails.
When discovery has returned and the keys before `k` in the iteration order
succeeded: (1) if `extractPackage k` fails, `Run` returns its error in the very
state it left, so nothing runs after the failure; (2) if resolving `k` fails,
`Run` returns that resolution error; (3) if `k` resolves, the files before `f`
succeed and `extractFile` fails on `f`, `Run` returns the error of `f` in the
state `extractFile` left, so no further file of `k` and no further package is
processed; (4) `extractFile` returns the error of whichever of its steps fails
first: parsing, `updateImports`, `os.Create`, `printer.Fprint` or `Flush`;
(5) the loop over the files stops at the first failing file. And (6) when
`Run` returns nil, for every key of the iteration `extractPackage` returned
nil, its resolution succeeded and `extractFile` returned nil for each of its
files; (7) a nil result of `extractFile` means that every one of its steps
succeeded. -/
theorem fail_fast {ω ε : Type} (sys : Sys ω ε) (pe : PackageExtractorOptions)
    (order : ImportMap → List String) (fuel : Nat) (w : ω)
    (hret : (discover sys pe fuel w).returned = true) :
    (∀ (pre post : List String) (k : String) (st1 st2 : State ω) (err : ε),
        order (discover sys pe fuel w).state.st.importMap = pre ++ k :: post →
        extractAll sys pe pre (discover sys pe fuel w).state.st = (none, st1) →
        extractPackage sys pe k st1 = (some err, st2) →
        Run sys pe order fuel w = Result.ret (some err) st2) ∧
      (∀ (pre post : List String) (k : String) (st1 : State ω) (err : ε) (w1 : ω),
        order (discover sys pe fuel w).state.st.importMap = pre ++ k :: post →
        extractAll sys pe pre (discover sys pe fuel w).state.st = (none, st1) →
        sys.Import st1.world k = (Except.error err, w1) →
        Run sys pe order fuel w = Result.ret (some err)
          { st1 with
            world := w1
            trace := st1.trace ++ [Event.extract k, Event.resolve k] }) ∧
      (∀ (pre post : List String) (k : String) (st1 : State ω) (pkg : Package) (w1 : ω)
        (fpre fpost : List String) (f : String) (st2 st3 : State ω) (err : ε),
        order (discover sys pe fuel w).state.st.importMap = pre ++ k :: post →
        extractAll sys pe pre (discover sys pe fuel w).state.st = (none, st1) →
        sys.Import st1.world k = (Except.ok pkg, w1) →
        pkg.GoFiles = fpre ++ f :: fpost →
        extractFiles sys pe (sys.Join [pkg.SrcRoot, k]) (pe.ImportRewriter k) fpre
          { st1 with
            world := (sys.MkdirAll w1 (sys.Join [pe.OutputRoot, pe.ImportRewriter k])).2
            trace := st1.trace ++ [Event.extract k, Event.resolve k] } = (none, st2) →
        extractFile sys (sys.Join [sys.Join [pkg.SrcRoot, k], f])
          (sys.Join [pe.OutputRoot, pe.ImportRewriter k, f]) st2 = (some err, st3) →
        Run sys pe order fuel w = Result.ret (some err) st3) ∧
      (∀ (src dst : String) (st : State ω),
        (∀ err w0, sys.ParseFile st.world src = (Except.error err, w0) →
          extractFile sys src dst st = (some err, { st with world := w0 })) ∧
        (∀ f w0 err, sys.ParseFile st.world src = (Except.ok f, w0) →
          (updateImports sys f { st with world := w0 }).1 = some err →
          extractFile sys src dst st = (some err, { st with world := w0 })) ∧
        (∀ f w0 err w1, sys.ParseFile st.world src = (Except.ok f, w0) →
          (updateImports sys f { st with world := w0 }).1 = none →
          sys.Create w0 dst = (some err, w1) →
          extractFile sys src dst st = (some err, { st with world := w1 })) ∧
        (∀ f w0 w1 err w2, sys.ParseFile st.world src = (Except.ok f, w0) →
          (updateImports sys f { st with world := w0 }).1 = none →
          sys.Create w0 dst = (none, w1) →
          sys.Fprint w1 dst (updateImports sys f { st with world := w0 }).2.1 = (some err, w2) →
          extractFile sys src dst st = (some err, { st with world := sys.Close w2 dst })) ∧
        (∀ f w0 w1 w2 err w3, sys.ParseFile st.world src = (Except.ok f, w0) →
          (updateImports sys f { st with world := w0 }).1 = none →
          sys.Create w0 dst = (none, w1) →
          sys.Fprint w1 dst (updateImports sys f { st with world := w0 }).2.1 = (none, w2) →
          sys.Flush w2 dst = (some err, w3) →
          extractFile sys src dst st = (some err, { st with world := sys.Close w3 dst }))) ∧
      (∀ (srcDir newImportPath : String) (pre post : List String) (f : String)
        (st st1 st2 : State ω) (err : ε),
        extractFiles sys pe srcDir newImportPath pre st = (none, st1) →
        extractFile sys (sys.Join [srcDir, f]) (sys.Join [pe.OutputRoot, newImportPath, f]) st1 =
          (some err, st2) →
        extractFiles sys pe srcDir newImportPath (pre ++ f :: post) st = (some err, st2)) ∧
      ((Run sys pe order fuel w).err = none →
        ∀ (pre post : List String) (k : String),
          order (discover sys pe fuel w).state.st.importMap = pre ++ k :: post →
          (extractAll sys pe pre (discover sys pe fuel w).state.st).1 = none ∧
            (extractPackage sys pe k
              (extractAll sys pe pre (discover sys pe fuel w).state.st).2).1 = none ∧
            ∃ pkg w1,
              sys.Import (extractAll sys pe pre (discover sys pe fuel w).state.st).2.world k =
                (Except.ok pkg, w1) ∧
              ∀ (fpre fpost : List String) (f : String), pkg.GoFiles = fpre ++ f :: fpost →
                (extractFile sys (sys.Join [sys.Join [pkg.SrcRoot, k], f])
                  (sys.Join [pe.OutputRoot, pe.ImportRewriter k, f])
                  (extractFiles sys pe (sys.Join [pkg.SrcRoot, k]) (pe.ImportRewriter k) fpre
                    { (extractAll sys pe pre (discover sys pe fuel w).state.st).2 with
                      world :=
                        (sys.MkdirAll w1 (sys.Join [pe.OutputRoot, pe.ImportRewriter k])).2
                      trace :=
                        (extractAll sys pe pre (discover sys pe fuel w).state.st).2.trace ++
                          [Event.extract k, Event.resolve k] }).2).1 = none) ∧
      (∀ (src dst : String) (st st1 : State ω), extractFile sys src dst st = (none, st1) →
        ∃ f w0 w1 w2 w3, sys.ParseFile st.world src = (Except.ok f, w0) ∧
          (updateImports sys f { st with world := w0 }).1 = none ∧
          sys.Create w0 dst = (none, w1) ∧
          sys.Fprint w1 dst (updateImports sys f { st with world := w0 }).2.1 = (none, w2) ∧
          sys.Flush w2 dst = (none, w3) ∧
          st1 = { st with world := sys.Close w3 dst }) := by
  have hrun := Run_of_returned sys pe order fuel w hret
  refine ⟨?_, ?_, ?_, ?_, ?_, ?_, ?_⟩
  · intro pre post k st1 st2 err hsplit hpre hk
    rw [hrun, hsplit, extractAll_stops sys pe pre post k _ st1 st2 err hpre hk]
  · intro pre post k st1 err w1 hsplit hpre hi
    rw [hrun, hsplit, extractAll_stops sys pe pre post k _ st1 _ err hpre
      (extractPackage_of_error sys pe k st1 err w1 hi)]
  · intro pre post k st1 pkg w1 fpre fpost f st2 st3 err hsplit hpre hi hfiles hfpre hf
    have hk : extractPackage sys pe k st1 = (some err, st3) := by
      rw [extractPackage_of_ok sys pe k st1 pkg w1 hi, hfiles]
      exact extractFiles_stops sys pe _ _ fpre fpost f _ st2 st3 err hfpre hf
    rw [hrun, hsplit, extractAll_stops sys pe pre post k _ st1 st3 err hpre hk]
  · intro src dst st
    exact ⟨fun err w0 hp => extractFile_parse_error sys src dst st err w0 hp,
      fun f w0 err hp hu => extractFile_rewrite_error sys src dst st f err w0 hp hu,
      fun f w0 err w1 hp hu hc => extractFile_create_error sys src dst st f err w0 w1 hp hu hc,
      fun f w0 w1 err w2 hp hu hc hf =>
        extractFile_print_error sys src dst st f err w0 w1 w2 hp hu hc hf,
      fun f w0 w1 w2 err w3 hp hu hc hf hfl =>
        extractFile_flush_error sys src dst st f err w0 w1 w2 w3 hp hu hc hf hfl⟩
  · intro srcDir newImportPath pre post f st st1 st2 err hpre hf
    exact extractFiles_stops sys pe srcDir newImportPath pre post f st st1 st2 err hpre hf
  · intro hnil pre post k hsplit
    rw [hrun] at hnil
    have hkeys := extractAll_none_prefix sys pe pre post k
      (discover sys pe fuel w).state.st (by rw [← hsplit]; exact hnil)
    obtain ⟨pkg, w1, hi, hfiles⟩ := extractPackage_none_inv sys pe k _ hkeys.2
    refine ⟨hkeys.1, hkeys.2, pkg, w1, hi, ?_⟩
    intro fpre fpost f hsplit2
    rw [hsplit2] at hfiles
    exact (extractFiles_none_before sys pe _ _ fpre fpost f _ hfiles).2
  · exact fun src dst st st1 h => extractFile_none_inv sys src dst st st1 h

/-- C11 at concrete inputs on the reference storage: `A` imports `B`, one file
each. When the file of `B` does not parse and the iteration visits `B` first,
`Run` returns the parse error in the state `extractFile` left: `extractPackage`
is not entered for `A` and the tree stays empty. When the printer fails and
the iteration visits `A` first, `Run` returns the write error of the file of
`A` and `extractPackage` is not entered for `B`. -/
theorem fail_fast_witness :
    (discover sysTreeABad peAll 5 []).returned = true ∧
      Run sysTreeABad peAll (fun _ => ["B", "A"]) 5 [] =
        Result.ret (some "src/B/b.go: syntax error")
          (extractFile sysTreeABad "src/B/b.go" "dst/out/B/b.go"
            { (discover sysTreeABad peAll 5 []).state.st with
              world := []
              trace := (discover sysTreeABad peAll 5 []).state.st.trace ++
                [Event.extract "B", Event.resolve "B"] }).2 ∧
      (Run sysTreeABad peAll (fun _ => ["B", "A"]) 5 []).err = some "src/B/b.go: syntax error" ∧
      extractedOf (Run sysTreeABad peAll (fun _ => ["B", "A"]) 5 []).state.trace = ["B"] ∧
      (Run sysTreeABad peAll (fun _ => ["B", "A"]) 5 []).state.world = [] ∧
      (Run sysTreePrintFails peAll (fun _ => ["A", "B"]) 5 []).err =
        some "write: no space left on device" ∧
      extractedOf (Run sysTreePrintFails peAll (fun _ => ["A", "B"]) 5 []).state.trace = ["A"] :=
  ⟨by decide,
    (fail_fast sysTreeABad peAll (fun _ => ["B", "A"]) 5 [] (by decide)).2.2.1
      [] ["A"] "B" (discover sysTreeABad peAll 5 []).state.st
      { Imports := [], GoFiles := ["b.go"], SrcRoot := "src" } []
      [] [] "b.go"
      { (discover sysTreeABad peAll 5 []).state.st with
        world := []
        trace := (discover sysTreeABad peAll 5 []).state.st.trace ++
          [Event.extract "B", Event.resolve "B"] }
      (extractFile sysTreeABad "src/B/b.go" "dst/out/B/b.go"
        { (discover sysTreeABad peAll 5 []).state.st with
          world := []
          trace := (discover sysTreeABad peAll 5 []).state.st.trace ++
            [Event.extract "B", Event.resolve "B"] }).2
      "src/B/b.go: syntax error" rfl rfl rfl rfl rfl (Prod.ext (by decide) rfl),
    by decide, by decide, by decide, by decide, by decide⟩

/-- C12, what the code does when the destination cannot be created: the root
`A` has no imports and no files and `os.MkdirAll` fails. The error of
`MkdirAll` is dropped on line 96 and `Run` returns nil. -/
theorem mkdir_failure_is_dropped :
    (sysMkdirFails.MkdirAll []
        (sysMkdirFails.Join [peAll.OutputRoot, peAll.ImportRewriter "A"])).1 =
        some "mkdir dst/out/A: permission denied" ∧
      mapKeys (discover sysMkdirFails peAll 5 []).state.st.importMap = ["A"] ∧
      extractedOf (Run sysMkdirFails peAll mapKeys 5 []).state.trace = ["A"] ∧
      (Run sysMkdirFails peAll mapKeys 5 []).returned = true ∧
      (Run sysMkdirFails peAll mapKeys 5 []).err = none := by
  decide

/-- C18: when the resolver answers the same for the same identifier in every
world, the iteration visits every key of the map, and the scan has returned the
error `e`, then some key `x` of the map is an identifier the resolver fails on
with `e`; `extractPackage x` fails with `e` in every state; and `Run` returns
an error. Every identifier pushed onto the frontier is a key of the map. -/
theorem failed_scan_fails_run {ω ε : Type} (sys : Sys ω ε) (pe : PackageExtractorOptions)
    (order : ImportMap → List String) (fuel : Nat) (w : ω) (e : ε)
    (hdet : ∀ w1 w2 x, (sys.Import w1 x).1 = (sys.Import w2 x).1)
    (horder : ∀ k ∈ mapKeys (discover sys pe fuel w).state.st.importMap,
      k ∈ order (discover sys pe fuel w).state.st.importMap)
    (hret : (discover sys pe fuel w).returned = true)
    (hfail : (discover sys pe fuel w).err = some e) :
    (∀ x ∈ pushedOf (discover sys pe fuel w).state.st.trace,
        x ∈ mapKeys (discover sys pe fuel w).state.st.importMap) ∧
      ∃ x, x ∈ mapKeys (discover sys pe fuel w).state.st.importMap ∧
        (∀ w1, (sys.Import w1 x).1 = Except.error e) ∧
        (∀ st : State ω, (extractPackage sys pe x st).1 = some e) ∧
        ∃ e1 st1, Run sys pe order fuel w = Result.ret (some e1) st1 := by
  have hinv := discover_inv sys pe fuel w
  refine ⟨fun x hx => by rw [hinv.keys_eq, ← hinv.pushed_eq]; exact hx, ?_⟩
  obtain ⟨x, w0, hxk, hxe⟩ := scanLoop_error sys pe fuel _ (scanInit_inv pe w) e hfail
  have hall : ∀ w1, (sys.Import w1 x).1 = Except.error e := fun w1 => by
    rw [hdet w1 w0 x]; exact hxe
  refine ⟨x, hxk, hall, extractPackage_fails sys pe x e hall, ?_⟩
  obtain ⟨e1, he1⟩ := extractAll_fails sys pe x e hall _ (horder x hxk)
    (discover sys pe fuel w).state.st
  refine ⟨e1, (extractAll sys pe (order (discover sys pe fuel w).state.st.importMap)
    (discover sys pe fuel w).state.st).2, ?_⟩
  rw [Run_of_returned sys pe order fuel w hret, he1]

/-- C18 at a concrete input: `A` imports `B` and the resolver fails on `B`;
the scan fails on `B` and `Run` returns the error of `B`. -/
theorem failed_scan_fails_run_witness :
    (∀ w1 w2 x, (sysBroken.Import w1 x).1 = (sysBroken.Import w2 x).1) ∧
      (∀ k ∈ mapKeys (discover sysBroken peAll 5 []).state.st.importMap,
        k ∈ mapKeys (discover sysBroken peAll 5 []).state.st.importMap) ∧
      (discover sysBroken peAll 5 []).returned = true ∧
      (discover sysBroken peAll 5 []).err = some "cannot find package B" ∧
      ((∀ x ∈ pushedOf (discover sysBroken peAll 5 []).state.st.trace,
          x ∈ mapKeys (discover sysBroken peAll 5 []).state.st.importMap) ∧
        ∃ x, x ∈ mapKeys (discover sysBroken peAll 5 []).state.st.importMap ∧
          (∀ w1, (sysBroken.Import w1 x).1 = Except.error "cannot find package B") ∧
          (∀ st : State (List String),
            (extractPackage sysBroken peAll x st).1 = some "cannot find package B") ∧
          ∃ e1 st1, Run sysBroken peAll mapKeys 5 [] = Result.ret (some e1) st1) ∧
      (Run sysBroken peAll mapKeys 5 []).err = some "cannot find package B" :=
  ⟨fun _ _ _ => rfl, fun _ h => h, by decide, by decide,
    failed_scan_fails_run sysBroken peAll mapKeys 5 [] "cannot find package B"
      (fun _ _ _ => rfl) (fun _ h => h) (by decide) (by decide),
    by decide⟩

/-- C13: two resolvers that succeed everywhere and declare, for every
identifier, the same set of imports (in any list order) over a finite graph
give equal maps: with more fuel than the graph has identifiers both
discovery phases return nil, every identifier has the same entry (or none)
in both maps, and the key lists are permutations of each other. -/
theorem discovery_order_independent {ω1 ω2 ε1 ε2 : Type} (sys1 : Sys ω1 ε1)
    (sys2 : Sys ω2 ε2) (pe : PackageExtractorOptions) (pkgs1 pkgs2 : String → Package)
    (U : List String)
    (hres1 : ∀ w x, (sys1.Import w x).1 = Except.ok (pkgs1 x))
    (hres2 : ∀ w x, (sys2.Import w x).1 = Except.ok (pkgs2 x))
    (hsame : ∀ x y, y ∈ (pkgs1 x).Imports ↔ y ∈ (pkgs2 x).Imports)
    (hroot : pe.InitialPkg ∈ U)
    (hU : ∀ x ∈ U, ∀ y ∈ (pkgs1 x).Imports, y ∈ U)
    (fuel : Nat) (hfuel : U.dedup.length < fuel) (w1 : ω1) (w2 : ω2) :
    ∃ s1 s2, discover sys1 pe fuel w1 = Result.ret none s1 ∧
      discover sys2 pe fuel w2 = Result.ret none s2 ∧
      (∀ k, mapLookup s1.st.importMap k = mapLookup s2.st.importMap k) ∧
      (mapKeys s1.st.importMap).Perm (mapKeys s2.st.importMap) := by
  obtain ⟨s1, hs1, hinv1, hk1⟩ :=
    discover_keys_iff sys1 pe pkgs1 U hres1 hroot hU fuel hfuel w1
  have hU2 : ∀ x ∈ U, ∀ y ∈ (pkgs2 x).Imports, y ∈ U :=
    fun x hx y hy => hU x hx y ((hsame x y).2 hy)
  obtain ⟨s2, hs2, hinv2, hk2⟩ :=
    discover_keys_iff sys2 pe pkgs2 U hres2 hroot hU2 fuel hfuel w2
  have hkeys : ∀ k, k ∈ mapKeys s1.st.importMap ↔ k ∈ mapKeys s2.st.importMap := by
    intro k
    rw [hk1, hk2]
    exact ⟨Reach.congr_imports (fun x y h => (hsame x y).1 h),
      Reach.congr_imports (fun x y h => (hsame x y).2 h)⟩
  refine ⟨s1, s2, hs1, hs2, ?_, ?_⟩
  · intro k
    rw [hinv1.lookup_eq, hinv2.lookup_eq]
    by_cases hk : k ∈ mapKeys s1.st.importMap
    · rw [if_pos hk, if_pos ((hkeys k).1 hk)]
    · rw [if_neg hk, if_neg (fun h => hk ((hkeys k).2 h))]
  · exact (List.perm_ext_iff_of_nodup hinv1.keys_nodup hinv2.keys_nodup).2 hkeys

/-- C13 at the first scenario with a `Filter` that accepts everything: `A`
declares `B, C` for one resolver and `C, B` for the other; the entries are
inserted in different orders and the maps are equal. -/
theorem discovery_order_independent_witness :
    (∀ (w : List String) x, (sysABCD.Import w x).1 = Except.ok (graphABCD x)) ∧
      (∀ (w : List String) x, (sysACBD.Import w x).1 = Except.ok (graphACBD x)) ∧
      (∀ x y, y ∈ (graphABCD x).Imports ↔ y ∈ (graphACBD x).Imports) ∧
      peAll.InitialPkg ∈ ["A", "B", "C", "D"] ∧
      (∀ x ∈ ["A", "B", "C", "D"], ∀ y ∈ (graphABCD x).Imports, y ∈ ["A", "B", "C", "D"]) ∧
      (∃ s1 s2, discover sysABCD peAll 5 [] = Result.ret none s1 ∧
        discover sysACBD peAll 5 [] = Result.ret none s2 ∧
        (∀ k, mapLookup s1.st.importMap k = mapLookup s2.st.importMap k) ∧
        (mapKeys s1.st.importMap).Perm (mapKeys s2.st.importMap)) ∧
      mapKeys (discover sysABCD peAll 5 []).state.st.importMap = ["A", "B", "C", "D"] ∧
      mapKeys (discover sysACBD peAll 5 []).state.st.importMap = ["A", "C", "B", "D"] :=
  have hsame : ∀ x y, y ∈ (graphABCD x).Imports ↔ y ∈ (graphACBD x).Imports := by
    intro x y
    unfold graphABCD graphACBD
    by_cases hA : x = "A"
    · simp only [hA, if_true, pkgOf, List.mem_cons, List.mem_singleton]
      tauto
    · simp only [hA, if_false]
  ⟨fun _ _ => rfl, fun _ _ => rfl, hsame, by decide, by decide,
    discovery_order_independent sysABCD sysACBD peAll graphABCD graphACBD ["A", "B", "C", "D"]
      (fun _ _ => rfl) (fun _ _ => rfl) hsame (by decide) (by decide) 5 (by decide) [] [],
    by decide, by decide⟩

/-- C19: after the discovery phase of `Run`, for every amount of fuel and
whether or not the scan ended with an error, a key `k` of `importMap` is
`InitialPkg`, or `Filter k` is true and `k` is among the imports of a package
the resolver answered for another key of the map; and `k` is reached from the
root through such steps. -/
theorem keys_are_sound {ω ε : Type} (sys : Sys ω ε) (pe : PackageExtractorOptions)
    (fuel : Nat) (w : ω) (k : String)
    (hk : k ∈ mapKeys (discover sys pe fuel w).state.st.importMap) :
    (k = pe.InitialPkg ∨
        (pe.Filter k = true ∧
          ∃ p ∈ mapKeys (discover sys pe fuel w).state.st.importMap, p ≠ k ∧
            ∃ w1 pkg, (sys.Import w1 p).1 = Except.ok pkg ∧ k ∈ pkg.Imports)) ∧
      ReachVia sys pe k :=
  ⟨(discover_sound sys pe fuel w k hk).2, (discover_sound sys pe fuel w k hk).1⟩

/-- C19 at the scenario in which the scan fails: `A` imports `B` and the
resolver fails on `B`; `B` is a key, accepted by `Filter` and imported by the
key `A`. -/
theorem keys_are_sound_witness :
    "B" ∈ mapKeys (discover sysBroken peAll 5 []).state.st.importMap ∧
      (discover sysBroken peAll 5 []).err = some "cannot find package B" ∧
      (("B" = peAll.InitialPkg ∨
          (peAll.Filter "B" = true ∧
            ∃ p ∈ mapKeys (discover sysBroken peAll 5 []).state.st.importMap, p ≠ "B" ∧
              ∃ w1 pkg, (sysBroken.Import w1 p).1 = Except.ok pkg ∧ "B" ∈ pkg.Imports)) ∧
        ReachVia sysBroken peAll "B") :=
  ⟨by decide, by decide, keys_are_sound sysBroken peAll 5 [] "B" (by decide)⟩

/-- C14, the claim as stated fails when a run fails: `A` imports `B`, both
resolve, discovery succeeds, and the file of `B` does not parse. When the
iteration visits `A` first, the file of `A` is in the output tree when `Run`
returns the parse error; when it visits `B` first, the output tree is
empty. -/
theorem output_tree_depends_on_order :
    (discover sysTreeABad peAll 5 []).returned = true ∧
      (discover sysTreeABad peAll 5 []).err = none ∧
      mapKeys (discover sysTreeABad peAll 5 []).state.st.importMap = ["A", "B"] ∧
      (Run sysTreeABad peAll (fun _ => ["A", "B"]) 5 []).err = some "src/B/b.go: syntax error" ∧
      (Run sysTreeABad peAll (fun _ => ["B", "A"]) 5 []).err = some "src/B/b.go: syntax error" ∧
      (Run sysTreeABad peAll (fun _ => ["A", "B"]) 5 []).state.world =
        [("dst/out/A/a.go", renderPlain
          { fileBC with Imports := [specOf (quotePlain "out/B"), specOf (quotePlain "C")] })] ∧
      (Run sysTreeABad peAll (fun _ => ["B", "A"]) 5 []).state.world = [] := by
  decide

/-- C14 (amended): on the reference storage, two executions of `Run` with the
same inputs against empty destination trees that both return nil leave equal
output trees, every path holding the same bytes in both, for every two
iteration orders that visit the keys of the map, when no two different source
files are sent to the same destination path. -/
theorem output_tree_order_independent (graph : String → Except String Package)
    (files : String → Except String File) (render : File → Except String String)
    (pe : PackageExtractorOptions) (o1 o2 : ImportMap → List String) (fuel : Nat)
    (ho1 : ∀ k, k ∈ o1 (discover (treeSys graph files render) pe fuel []).state.st.importMap ↔
      k ∈ mapKeys (discover (treeSys graph files render) pe fuel []).state.st.importMap)
    (ho2 : ∀ k, k ∈ o2 (discover (treeSys graph files render) pe fuel []).state.st.importMap ↔
      k ∈ mapKeys (discover (treeSys graph files render) pe fuel []).state.st.importMap)
    (hdst : ∀ k1 k2 pkg1 pkg2 f1 f2, graph k1 = Except.ok pkg1 → graph k2 = Except.ok pkg2 →
      f1 ∈ pkg1.GoFiles → f2 ∈ pkg2.GoFiles →
      joinSlash [pe.OutputRoot, pe.ImportRewriter k1, f1] =
        joinSlash [pe.OutputRoot, pe.ImportRewriter k2, f2] →
      joinSlash [joinSlash [pkg1.SrcRoot, k1], f1] =
        joinSlash [joinSlash [pkg2.SrcRoot, k2], f2])
    (hret : (discover (treeSys graph files render) pe fuel []).returned = true)
    (h1 : (Run (treeSys graph files render) pe o1 fuel []).err = none)
    (h2 : (Run (treeSys graph files render) pe o2 fuel []).err = none) :
    ∀ path, mapLookup (Run (treeSys graph files render) pe o1 fuel []).state.world path =
      mapLookup (Run (treeSys graph files render) pe o2 fuel []).state.world path := by
  intro path
  have hr1 := Run_of_returned (treeSys graph files render) pe o1 fuel [] hret
  have hr2 := Run_of_returned (treeSys graph files render) pe o2 fuel [] hret
  rw [hr1] at h1 ⊢
  rw [hr2] at h2 ⊢
  have e1 : extractAll (treeSys graph files render) pe
      (o1 (discover (treeSys graph files render) pe fuel []).state.st.importMap)
      (discover (treeSys graph files render) pe fuel []).state.st =
      (none, (extractAll (treeSys graph files render) pe
        (o1 (discover (treeSys graph files render) pe fuel []).state.st.importMap)
        (discover (treeSys graph files render) pe fuel []).state.st).2) :=
    Prod.ext h1 rfl
  have e2 : extractAll (treeSys graph files render) pe
      (o2 (discover (treeSys graph files render) pe fuel []).state.st.importMap)
      (discover (treeSys graph files render) pe fuel []).state.st =
      (none, (extractAll (treeSys graph files render) pe
        (o2 (discover (treeSys graph files render) pe fuel []).state.st.importMap)
        (discover (treeSys graph files render) pe fuel []).state.st).2) :=
    Prod.ext h2 rfl
  obtain ⟨_, hl1⟩ := extractAll_tree graph files render pe _ _ _ e1
  obtain ⟨_, hl2⟩ := extractAll_tree graph files render pe _ _ _ e2
  show mapLookup (extractAll (treeSys graph files render) pe
      (o1 (discover (treeSys graph files render) pe fuel []).state.st.importMap)
      (discover (treeSys graph files render) pe fuel []).state.st).2.world path =
    mapLookup (extractAll (treeSys graph files render) pe
      (o2 (discover (treeSys graph files render) pe fuel []).state.st.importMap)
      (discover (treeSys graph files render) pe fuel []).state.st).2.world path
  have h12 : ∀ k, k ∈ o1 (discover (treeSys graph files render) pe fuel []).state.st.importMap →
      k ∈ o2 (discover (treeSys graph files render) pe fuel []).state.st.importMap :=
    fun k hk => (ho2 k).2 ((ho1 k).1 hk)
  have h21 : ∀ k, k ∈ o2 (discover (treeSys graph files render) pe fuel []).state.st.importMap →
      k ∈ o1 (discover (treeSys graph files render) pe fuel []).state.st.importMap :=
    fun k hk => (ho1 k).2 ((ho2 k).1 hk)
  rcases hl1 path with hw1 | ⟨hn1, hc1⟩
  · rcases hl2 path with hw2 | ⟨hn2, hc2⟩
    · obtain ⟨k1, _, pkg1, hg1, f1, hf1, hd1, hb1⟩ := hw1
      obtain ⟨k2, _, pkg2, hg2, f2, hf2, hd2, hb2⟩ := hw2
      rw [hb1, hb2, hdst k1 k2 pkg1 pkg2 f1 f2 hg1 hg2 hf1 hf2 (hd1.trans hd2.symm)]
    · exact absurd (hw1.mono h12) (hn2 _)
  · rcases hl2 path with hw2 | ⟨hn2, hc2⟩
    · exact absurd (hw2.mono h21) (hn1 _)
    · rw [hc1, hc2]

/-- C14 (amended) at a concrete input: `A` imports `B`, one file each; the
iteration orders `A, B` and `B, A` give the same bytes at every path. -/
theorem output_tree_order_independent_witness :
    (∀ k, k ∈ ["A", "B"] ↔ k ∈ mapKeys (discover sysTreeAB peAll 5 []).state.st.importMap) ∧
      (∀ k, k ∈ ["B", "A"] ↔ k ∈ mapKeys (discover sysTreeAB peAll 5 []).state.st.importMap) ∧
      (discover sysTreeAB peAll 5 []).returned = true ∧
      (Run sysTreeAB peAll (fun _ => ["A", "B"]) 5 []).err = none ∧
      (Run sysTreeAB peAll (fun _ => ["B", "A"]) 5 []).err = none ∧
      (∀ path, mapLookup (Run sysTreeAB peAll (fun _ => ["A", "B"]) 5 []).state.world path =
        mapLookup (Run sysTreeAB peAll (fun _ => ["B", "A"]) 5 []).state.world path) ∧
      mapLookup (Run sysTreeAB peAll (fun _ => ["A", "B"]) 5 []).state.world "dst/out/A/a.go" =
        some (renderPlain
          { fileBC with Imports := [specOf (quotePlain "out/B"), specOf (quotePlain "C")] }) :=
  have hk : mapKeys (discover sysTreeAB peAll 5 []).state.st.importMap = ["A", "B"] := by decide
  have ho1 : ∀ k, k ∈ ["A", "B"] ↔
      k ∈ mapKeys (discover sysTreeAB peAll 5 []).state.st.importMap := by
    intro k; rw [hk]
  have ho2 : ∀ k, k ∈ ["B", "A"] ↔
      k ∈ mapKeys (discover sysTreeAB peAll 5 []).state.st.importMap := by
    intro k; rw [hk]; simp only [List.mem_cons, List.mem_singleton, List.not_mem_nil, or_false]
    tauto
  ⟨ho1, ho2, by decide, by decide, by decide,
    output_tree_order_independent graphAB filesAB (fun f => Except.ok (renderPlain f)) peAll
      (fun _ => ["A", "B"]) (fun _ => ["B", "A"]) 5 ho1 ho2 graphAB_no_clash
      (by decide) (by decide) (by decide),
    by decide⟩

/-- C15, the claim as stated fails when the printer fails: on the reference
storage, with a printer that returns an error, `extractFile` returns that
error and the destination, absent before, exists with no bytes. -/
theorem print_failure_leaves_empty_file :
    (extractFile sysTreePrintFails "src/A/a.go" "dst/out/A/a.go" stateTreeB).1 =
        some "write: no space left on device" ∧
      mapLookup stateTreeB.world "dst/out/A/a.go" = none ∧
      mapLookup (extractFile sysTreePrintFails "src/A/a.go" "dst/out/A/a.go" stateTreeB).2.world
        "dst/out/A/a.go" = some "" := by
  decide

/-- C15 (amended): when parsing fails, or `updateImports` fails, `extractFile`
returns that error and the world is the one `ParseFile` left: `Create`,
`Fprint`, `Flush` and `Close` were not called, so the destination was neither
created nor modified. When `extractFile` returns nil, the file was created,
the whole rewritten unit was printed and flushed without error, and the file
was closed; on the reference storage the destination then holds the bytes of
the rewritten unit. -/
theorem file_write_complete_or_unattempted {ω ε : Type} (sys : Sys ω ε) (src dst : String)
    (st : State ω) :
    (∀ err w0, sys.ParseFile st.world src = (Except.error err, w0) →
        extractFile sys src dst st = (some err, { st with world := w0 })) ∧
      (∀ f w0 err, sys.ParseFile st.world src = (Except.ok f, w0) →
        (updateImportSpecs sys st.importMap f.Imports).1 = some err →
        extractFile sys src dst st = (some err, { st with world := w0 })) ∧
      (∀ st1, extractFile sys src dst st = (none, st1) →
        ∃ f w0 w1 w2 w3, sys.ParseFile st.world src = (Except.ok f, w0) ∧
          (updateImportSpecs sys st.importMap f.Imports).1 = none ∧
          sys.Create w0 dst = (none, w1) ∧
          sys.Fprint w1 dst
            { f with Imports := (updateImportSpecs sys st.importMap f.Imports).2 } = (none, w2) ∧
          sys.Flush w2 dst = (none, w3) ∧
          st1 = { st with world := sys.Close w3 dst }) ∧
      (∀ graph files render (t t1 : State Tree),
        extractFile (treeSys graph files render) src dst t = (none, t1) →
        ∃ b, fileBytes graph files render t.importMap src = some b ∧
          mapLookup t1.world dst = some b) := by
  refine ⟨?_, ?_, ?_, ?_⟩
  · intro err w0 hp
    unfold extractFile
    rw [hp]
  · intro f w0 err hp hu
    unfold extractFile
    rw [hp]
    simp only [updateImports, hu]
  · exact fun st1 h => extractFile_none_inv sys src dst st st1 h
  · intro graph files render t t1 h
    obtain ⟨_, b, hb, hl⟩ := extractFile_tree graph files render src dst t t1 h
    exact ⟨b, hb, by rw [hl dst, if_pos rfl]⟩

end Pkgextract
